import Mathlib

/-!
Verification of the DLCoal reconciliation engine (`dlcoal/__init__.py`).

The development shallowly embeds the parts of the source that the checked
properties are about:

* a log-domain value type `LReal K` mirroring Python floats restricted to
  the values that actually occur in this code: finite numbers and the
  distinguished `-inf` sentinel (`util.INF` negated);
* the probability model `prob_locus_coal_recon_topology` /
  `prob_dlcoal_recon_topology` (value level, delegated numerical
  subroutines appear as function parameters exactly where the source calls
  an external routine);
* the native-prior fallback machinery of `prob_dlcoal_recon_topology`
  (a state machine over the module's `globals()` and the function-local
  binding produced by the in-function import);
* `UniqueTreeSearch.propose` (generic over the delegate operator);
* a small heap semantics (addresses into an object store) for the mutable
  objects of the search: dict-like mappings, trees, `Recon` records, with
  the proposer `DLCoalReconProposer` and the driver `DLCoalRecon` as state
  machines over that heap.  External library routines that allocate or
  mutate objects (`phylo.reconcile`, `phylo.enum_recon`,
  `treelib.set_dists_from_timestamps`, tree copy/re-root/rename, the NNI
  search operator) are not under `src/` and are modelled from the spec;
  each such definition carries a doc comment saying so.
-/

namespace DLCoal

/-! ## Log-domain values

Python floats as used by this code: either the sentinel `-util.INF`
(negative infinity) or a finite value drawn from `K`.  `+inf` and `nan`
never arise on the executed paths, so the type omits them. -/

/-- A log-probability: negative infinity or a finite value. -/
inductive LReal (K : Type) where
  | ninf : LReal K
  | val : K → LReal K
deriving DecidableEq, Repr

/-- Float addition restricted to the values above: `-inf` absorbs. -/
def LReal.add {K : Type} [Add K] : LReal K → LReal K → LReal K
  | .ninf, _ => .ninf
  | .val _, .ninf => .ninf
  | .val a, .val b => .val (a + b)

/-- Subtracting a finite float from an `LReal` (`lnp -= p` with finite `p`). -/
def LReal.subVal {K : Type} [Sub K] : LReal K → K → LReal K
  | .ninf, _ => .ninf
  | .val a, x => .val (a - x)

/-- The finite part of an `LReal` (0 for the sentinel). -/
def LReal.fin {K : Type} [Zero K] : LReal K → K
  | .ninf => 0
  | .val a => a

@[simp] theorem LReal.add_ninf_left {K : Type} [Add K] (x : LReal K) :
    LReal.add .ninf x = .ninf := rfl

@[simp] theorem LReal.add_val_val {K : Type} [Add K] (a b : K) :
    LReal.add (.val a) (.val b) = .val (a + b) := rfl

@[simp] theorem LReal.subVal_ninf {K : Type} [Sub K] (x : K) :
    LReal.subVal .ninf x = (.ninf : LReal K) := rfl

@[simp] theorem LReal.subVal_val {K : Type} [Sub K] (a x : K) :
    LReal.subVal (.val a) x = (.val (a - x) : LReal K) := rfl

/-! ## `prob_locus_coal_recon_topology` (source lines 434-479)

The function computes `lnp = coal.prob_multicoal_recon_topology(...)` and
then, iterating over the daughter set, computes
`p = coal.cdf_mrca_bounded_multicoal(...)` for each daughter; if
`p == -util.INF` it returns `-util.INF` at once, otherwise it subtracts
`p` from `lnp`.  The two delegated subroutines are external
(`compbio.coal`); they enter the embedding as the parameters `lnp` (the
generic multispecies-coalescent log-likelihood of this timing sample) and
`cdf` (daughter node to bounded-coalescent completion log-probability).
Daughters are iterated in the (arbitrary but fixed) set order, embedded
as a list. -/

/-- The `for daughter in daughters` loop of the source: accumulator `acc`
starts at `lnp`; a daughter whose completion probability is the sentinel
makes the whole call return the sentinel immediately. -/
def locus_daughter_loop {K : Type} [Sub K] (cdf : ℕ → LReal K) :
    List ℕ → LReal K → LReal K
  | [], acc => acc
  | d :: ds, acc =>
    match cdf d with
    | .ninf => .ninf
    | .val p => locus_daughter_loop cdf ds (acc.subVal p)

/-- `prob_locus_coal_recon_topology` (lines 434-479): the multispecies
coalescent log-likelihood minus each daughter's completion
log-probability, with an immediate `-inf` return on a sentinel. -/
def prob_locus_coal_recon_topology {K : Type} [Sub K]
    (lnp : LReal K) (cdf : ℕ → LReal K) (daughters : List ℕ) : LReal K :=
  locus_daughter_loop cdf daughters lnp

/-- The daughters whose `cdf_mrca_bounded_multicoal` call the loop actually
performs: every daughter up to and including the first sentinel. -/
def locus_daughter_evals {K : Type} (cdf : ℕ → LReal K) :
    List ℕ → List ℕ
  | [] => []
  | d :: ds =>
    match cdf d with
    | .ninf => [d]
    | .val _ => d :: locus_daughter_evals cdf ds

theorem locus_daughter_loop_all_finite {K : Type} [AddCommGroup K]
    (cdf : ℕ → LReal K) (ds : List ℕ) (acc : LReal K)
    (h : ∀ d ∈ ds, cdf d ≠ .ninf) :
    locus_daughter_loop cdf ds acc
      = acc.subVal ((ds.map (fun d => (cdf d).fin)).sum) := by
  induction ds generalizing acc with
  | nil =>
    cases acc <;> simp [locus_daughter_loop, LReal.subVal]
  | cons d ds ih =>
    have hd : cdf d ≠ .ninf := h d (List.mem_cons_self d ds)
    cases hcd : cdf d with
    | ninf => exact absurd hcd hd
    | val p =>
      have hrest : ∀ x ∈ ds, cdf x ≠ .ninf := fun x hx =>
        h x (List.mem_cons_of_mem d hx)
      simp only [locus_daughter_loop, hcd]
      rw [ih _ hrest]
      cases acc <;> simp [hcd, LReal.subVal, LReal.fin, sub_sub]

theorem locus_daughter_loop_sentinel {K : Type} [Sub K]
    (cdf : ℕ → LReal K) (ds : List ℕ) (acc : LReal K) (i : ℕ)
    (hi : i < ds.length) (hsent : cdf (ds.getD i 0) = .ninf)
    (hbefore : ∀ j < i, cdf (ds.getD j 0) ≠ .ninf) :
    locus_daughter_loop cdf ds acc = .ninf
      ∧ locus_daughter_evals cdf ds = ds.take (i + 1) := by
  induction ds generalizing i acc with
  | nil => simp at hi
  | cons d ds ih =>
    cases i with
    | zero =>
      simp only [List.getD_cons_zero] at hsent
      simp [locus_daughter_loop, locus_daughter_evals, hsent]
    | succ i =>
      have hd : cdf d ≠ .ninf := by
        have := hbefore 0 (Nat.succ_pos i)
        simpa using this
      cases hcd : cdf d with
      | ninf => exact absurd hcd hd
      | val p =>
        simp only [List.getD_cons_succ] at hsent
        have hb : ∀ j < i, cdf (ds.getD j 0) ≠ .ninf := by
          intro j hj
          have := hbefore (j + 1) (Nat.succ_lt_succ hj)
          simpa using this
        have hlen : i < ds.length := by
          simpa using Nat.lt_of_succ_lt_succ hi
        have hrec := ih (acc.subVal p) i hlen hsent hb
        refine ⟨?_, ?_⟩
        · simp only [locus_daughter_loop, hcd]
          exact hrec.1
        · simp only [locus_daughter_evals, hcd, List.take_succ_cons]
          rw [hrec.2]

/-- Claim C3: in `prob_locus_coal_recon_topology`, if some daughter's
bounded-coalescent completion probability is the negative-infinity
sentinel, the function returns negative infinity immediately and the
remaining daughters' completion probabilities are never evaluated;
otherwise it returns the generic multispecies-coalescent log-likelihood
minus the sum of all daughters' completion log-probabilities. -/
theorem claim_C3 {K : Type} [AddCommGroup K]
    (lnp : LReal K) (cdf : ℕ → LReal K) (ds : List ℕ) :
    ((∀ d ∈ ds, cdf d ≠ .ninf) →
        prob_locus_coal_recon_topology lnp cdf ds
            = lnp.subVal ((ds.map (fun d => (cdf d).fin)).sum)
          ∧ locus_daughter_evals cdf ds = ds)
      ∧ (∀ i, i < ds.length → cdf (ds.getD i 0) = .ninf →
          (∀ j < i, cdf (ds.getD j 0) ≠ .ninf) →
          prob_locus_coal_recon_topology lnp cdf ds = .ninf
            ∧ locus_daughter_evals cdf ds = ds.take (i + 1)) := by
  constructor
  · intro h
    refine ⟨locus_daughter_loop_all_finite cdf ds lnp h, ?_⟩
    induction ds with
    | nil => rfl
    | cons d ds ih =>
      have hd : cdf d ≠ .ninf := h d (List.mem_cons_self d ds)
      cases hcd : cdf d with
      | ninf => exact absurd hcd hd
      | val p =>
        simp only [locus_daughter_evals, hcd, List.cons.injEq, true_and]
        exact ih fun x hx => h x (List.mem_cons_of_mem d hx)
  · intro i hi hsent hbefore
    exact locus_daughter_loop_sentinel cdf ds lnp i hi hsent hbefore

/-- A concrete completion-probability table for the C3 witness: daughter 1
has the sentinel probability, daughters 0 and 2 are finite. -/
def c3cdf : ℕ → LReal ℚ :=
  fun d => if d = 1 then .ninf else .val 1

theorem claim_C3_witness :
    prob_locus_coal_recon_topology (.val (5 : ℚ)) c3cdf [0, 1, 2] = .ninf
      ∧ locus_daughter_evals c3cdf [0, 1, 2] = [0, 1] := by
  have h := (claim_C3 (K := ℚ) (.val 5) c3cdf [0, 1, 2]).2 1
    (by decide) (by decide) (by decide)
  exact ⟨h.1, h.2⟩

/-! ## The Monte Carlo coalescent term (source lines 408-431)

`prob_dlcoal_recon_topology` integrates the coalescent topology
likelihood over sampled duplication times: `prob = 0.0`, then per sample
`prob += exp(coal_prob)`, and the final term is
`util.safelog(prob / nsamples)`.  The per-sample inputs (the delegated
`coal.prob_multicoal_recon_topology` value and the daughters' completion
probabilities, both functions of the sampled timing) enter as `SampleIn`;
the per-sample likelihood is the embedded
`prob_locus_coal_recon_topology` exactly as at source line 419. -/

/-- Modelled from the spec: `rasmus.util.safelog` is not under `src/`;
the spec requires a safe log that maps zero or negative input to negative
infinity rather than raising. -/
noncomputable def safelog (x : ℝ) : LReal ℝ :=
  if x ≤ 0 then .ninf else .val (Real.log x)

/-- `exp` on a log-domain value: `exp(-inf) = 0`. -/
noncomputable def lexp : LReal ℝ → ℝ
  | .ninf => 0
  | .val x => Real.exp x

/-- The inputs that one sampled timing determines for the per-sample
likelihood: the delegated multispecies-coalescent log-likelihood and the
daughters' bounded-coalescent completion log-probabilities. -/
structure SampleIn where
  lnp : LReal ℝ
  cdf : ℕ → LReal ℝ

/-- The `coal_prob` of one Monte Carlo iteration (source line 419). -/
noncomputable def coal_prob_sample (daughters : List ℕ) (s : SampleIn) :
    LReal ℝ :=
  prob_locus_coal_recon_topology s.lnp s.cdf daughters

/-- The linear-domain accumulator `prob` after the sampling loop
(source lines 409-422). -/
noncomputable def mc_prob_sum (nsamples : ℕ) (daughters : List ℕ)
    (samp : ℕ → SampleIn) : ℝ :=
  ∑ i ∈ Finset.range nsamples, lexp (coal_prob_sample daughters (samp i))

/-- The Monte Carlo coalescent term `util.safelog(prob / nsamples)`. -/
noncomputable def coal_term (nsamples : ℕ) (daughters : List ℕ)
    (samp : ℕ → SampleIn) : LReal ℝ :=
  safelog (mc_prob_sum nsamples daughters samp / (nsamples : ℝ))

/-- The daughters prior `d_prob = dups * log(.5)` (source lines 403-405);
`dups` is `phylo.count_dup(locus_tree, locus_events)`, the number of
duplication nodes of the locus tree. -/
noncomputable def d_prob (dups : ℕ) : LReal ℝ :=
  .val ((dups : ℝ) * Real.log (1 / 2))

/-- The breakdown dictionary `info` (source lines 425-429). -/
structure ScoreInfo where
  duploss_prob : LReal ℝ
  daughters_prob : LReal ℝ
  coal_prob : LReal ℝ
  prob : LReal ℝ

/-- `prob_dlcoal_recon_topology` (source lines 350-431), value level: the
duploss prior `dl_prob` is a parameter (its computation, with the native
and fallback paths, is the state machine embedded further below); the
return value is `dl_prob + d_prob + util.safelog(prob / nsamples)` and
the filled breakdown dictionary. -/
noncomputable def prob_dlcoal_recon_topology (dl_prob : LReal ℝ)
    (dups nsamples : ℕ) (daughters : List ℕ) (samp : ℕ → SampleIn) :
    LReal ℝ × ScoreInfo :=
  ((dl_prob.add (d_prob dups)).add (coal_term nsamples daughters samp),
   { duploss_prob := dl_prob
     daughters_prob := d_prob dups
     coal_prob := coal_term nsamples daughters samp
     prob := (dl_prob.add (d_prob dups)).add
       (coal_term nsamples daughters samp) })

/-- Claim C4: the Monte Carlo coalescent term accumulates
`exp(per-sample log-likelihood)` in the linear domain and equals
`safelog(sum / nsamples)`; it is negative infinity when every sampled
likelihood is zero; and with `nsamples = 1` it equals exactly the single
sample's log-likelihood. -/
theorem claim_C4 (n : ℕ) (daughters : List ℕ) (samp : ℕ → SampleIn) :
    coal_term n daughters samp
        = safelog ((∑ i ∈ Finset.range n,
            lexp (coal_prob_sample daughters (samp i))) / (n : ℝ))
      ∧ ((∀ i < n, coal_prob_sample daughters (samp i) = .ninf) →
          coal_term n daughters samp = .ninf)
      ∧ (n = 1 →
          coal_term n daughters samp = coal_prob_sample daughters (samp 0)) := by
  refine ⟨rfl, ?_, ?_⟩
  · intro h
    have hsum : mc_prob_sum n daughters samp = 0 := by
      unfold mc_prob_sum
      refine Finset.sum_eq_zero ?_
      intro i hi
      rw [h i (Finset.mem_range.mp hi)]
      rfl
    unfold coal_term
    rw [hsum, zero_div]
    unfold safelog
    rw [if_pos le_rfl]
  · intro hn
    subst hn
    have hsum : mc_prob_sum 1 daughters samp
        = lexp (coal_prob_sample daughters (samp 0)) := by
      unfold mc_prob_sum
      simp
    unfold coal_term
    rw [hsum]
    cases hc : coal_prob_sample daughters (samp 0) with
    | ninf =>
      unfold safelog lexp
      norm_num
    | val x =>
      unfold safelog lexp
      have hpos : 0 < Real.exp x := Real.exp_pos x
      rw [Nat.cast_one, div_one, if_neg (not_le.mpr hpos), Real.log_exp]

theorem claim_C4_witness :
    coal_term 1 [] (fun _ => ⟨.ninf, fun _ => .val 0⟩) = .ninf :=
  ((claim_C4 1 [] (fun _ => ⟨.ninf, fun _ => .val 0⟩)).2.2 rfl).trans rfl

/-- Claim C5: the score is `duploss_prior + daughter_prior + Monte-Carlo
coalescent term`, the daughter prior is `dups * log(0.5)`, and the
breakdown dictionary exposes exactly these three terms plus the total,
the exposed total being the returned value. -/
theorem claim_C5 (dl : LReal ℝ) (dups n : ℕ) (ds : List ℕ)
    (samp : ℕ → SampleIn) :
    (prob_dlcoal_recon_topology dl dups n ds samp).1
        = (dl.add (d_prob dups)).add (coal_term n ds samp)
      ∧ d_prob dups = .val ((dups : ℝ) * Real.log (1 / 2))
      ∧ (prob_dlcoal_recon_topology dl dups n ds samp).2.duploss_prob = dl
      ∧ (prob_dlcoal_recon_topology dl dups n ds samp).2.daughters_prob
          = d_prob dups
      ∧ (prob_dlcoal_recon_topology dl dups n ds samp).2.coal_prob
          = coal_term n ds samp
      ∧ (prob_dlcoal_recon_topology dl dups n ds samp).2.prob
          = (prob_dlcoal_recon_topology dl dups n ds samp).1 :=
  ⟨rfl, rfl, rfl, rfl, rfl, rfl⟩

/-! ## The native-prior fallback machinery (source lines 384-401)

The duploss prior is computed by `spidir.calc_birth_death_prior` inside a
`try`; on any exception the handler runs: if `"dlcoal_python_fallback"`
is not yet in `globals()` it prints the exception and a warning to
stderr, sets the global flag, and executes
`from spidir import topology_prior`; then (outside the guard) it calls
`topology_prior.dup_loss_topology_prior(...)`.  Python resolves
`topology_prior` as a *function-local* name in every invocation, because
the function body contains an import statement binding it; the guarded
block is the only place that binds it.  So in an invocation whose native
call raises while the global flag is already set, line 399 raises
UnboundLocalError instead of computing the fallback prior. -/

/-- The module-level state the fallback machinery reads and writes:
whether `dlcoal_python_fallback` is in `globals()`, and how many warnings
have been written to stderr. -/
structure FallbackGlobals where
  dlcoal_python_fallback : Bool
  warnings : ℕ
deriving DecidableEq, Repr

/-- The exception escaping the duploss-prior block on its broken path. -/
inductive PyExn where
  | unboundLocalError : PyExn
deriving DecidableEq, Repr

/-- One evaluation of the duploss-prior block (lines 384-401).  `native`
is the behavior of `spidir.calc_birth_death_prior` on this call (`some v`
returns `v`, `none` raises); `fallback` is the value
`topology_prior.dup_loss_topology_prior` would compute.  The native
routine is attempted unconditionally (the `try` body) on every call. -/
def calc_dl_prob (native : Option ℚ) (fallback : ℚ)
    (g : FallbackGlobals) : Except PyExn ℚ × FallbackGlobals :=
  match native with
  | some v => (.ok v, g)
  | none =>
    if g.dlcoal_python_fallback then
      (.error .unboundLocalError, g)
    else
      (.ok fallback,
       { dlcoal_python_fallback := true, warnings := g.warnings + 1 })

/-- A sequence of duploss-prior evaluations from a given global state:
returns the per-call results, the final global state, and the number of
times the native routine was attempted. -/
def dl_prob_run (fallback : ℚ) :
    List (Option ℚ) → FallbackGlobals →
      List (Except PyExn ℚ) × FallbackGlobals × ℕ
  | [], g => ([], g, 0)
  | nb :: rest, g =>
    let step := calc_dl_prob nb fallback g
    let run := dl_prob_run fallback rest step.2
    (step.1 :: run.1, run.2.1, run.2.2 + 1)

/-- Claim C2 (code bug): on the first native failure the warning is
logged once, the global flag is set and the fallback value is returned;
but the native routine is re-attempted on the next call, and when it
fails again the function raises UnboundLocalError (the function-local
`topology_prior` is unbound because the guarded import was skipped)
instead of using the pure fallback for the remainder of the process. -/
theorem claim_C2_code_bug :
    dl_prob_run 7 [none, none] ⟨false, 0⟩
      = ([.ok 7, .error .unboundLocalError], ⟨true, 1⟩, 2) := rfl

/-! ## `UniqueTreeSearch.propose` (source lines 692-731)

The wrapper keeps a `seen` set of canonical topology hashes and retries
the delegate operator up to `maxtries` times.  The delegate is generic:
`pr` is its `propose` (state to state and produced tree) and `rv` its
`revert`; `hashf` is the canonical hash (`phylo.hash_tree` by default).
The `seen` set is embedded as a list with membership. -/

/-- The candidate sequence the retry loop generates: attempt 0 proposes
from the incoming delegate state; attempt `k + 1` first reverts the
delegate's previous proposal, then proposes again (lines 712-715).
Returns the delegate state after attempt `k` and attempt `k`'s tree. -/
def uts_candidate {σ τ : Type} (pr : σ → σ × τ) (rv : σ → σ) (s : σ) :
    ℕ → σ × τ
  | 0 => pr s
  | k + 1 => pr (rv (uts_candidate pr rv s k).1)

/-- The delegate state at entry of attempt `i`. -/
def uts_entry {σ τ : Type} (pr : σ → σ × τ) (rv : σ → σ) (s : σ) :
    ℕ → σ
  | 0 => s
  | i + 1 => (uts_candidate pr rv s i).1

/-- The `for i in xrange(self.maxtries)` loop of lines 712-719: revert
before every attempt after the first, propose, and stop on the first
candidate whose hash is not in `seen` or when the budget is exhausted. -/
def uts_loop {σ τ : Type} (pr : σ → σ × τ) (rv : σ → σ)
    (hashf : τ → ℕ) (seen : List ℕ) (maxtries : ℕ) (i : ℕ) (s : σ) :
    σ × τ :=
  let s0 := if 0 < i then rv s else s
  let c := pr s0
  if hashf c.2 ∈ seen then
    if h : i + 1 < maxtries then
      uts_loop pr rv hashf seen maxtries (i + 1) c.1
    else c
  else c
termination_by maxtries - i
decreasing_by omega

/-- `UniqueTreeSearch.propose` (lines 710-726): run the retry loop from
attempt 0, then add the accepted tree's hash to `seen` regardless of
novelty, and return the tree.  With `maxtries = 0` the loop body never
runs and line 724 reads the unbound local `top` (NameError): `none`. -/
def UniqueTreeSearch.propose {σ τ : Type} (pr : σ → σ × τ) (rv : σ → σ)
    (hashf : τ → ℕ) (seen : List ℕ) (maxtries : ℕ) (s : σ) :
    Option (σ × τ × List ℕ) :=
  if maxtries = 0 then none
  else
    let c := uts_loop pr rv hashf seen maxtries 0 s
    some (c.1, c.2, hashf c.2 :: seen)

theorem uts_loop_spec {σ τ : Type} (pr : σ → σ × τ) (rv : σ → σ)
    (hashf : τ → ℕ) (seen : List ℕ) (maxtries : ℕ) (s : σ) (i : ℕ)
    (hi : i < maxtries)
    (hseen : ∀ j < i, hashf (uts_candidate pr rv s j).2 ∈ seen) :
    ∃ k, i ≤ k ∧ k < maxtries ∧
      uts_loop pr rv hashf seen maxtries i (uts_entry pr rv s i)
        = uts_candidate pr rv s k
      ∧ (∀ j < k, hashf (uts_candidate pr rv s j).2 ∈ seen)
      ∧ (hashf (uts_candidate pr rv s k).2 ∉ seen ∨ k = maxtries - 1) := by
  generalize hfuel : maxtries - i = fuel
  induction fuel generalizing i with
  | zero => omega
  | succ n ih =>
    have hstep : pr (if 0 < i then rv (uts_entry pr rv s i)
        else uts_entry pr rv s i) = uts_candidate pr rv s i := by
      cases i with
      | zero => simp [uts_entry, uts_candidate]
      | succ m => simp [uts_entry, uts_candidate]
    rw [uts_loop]
    simp only [hstep]
    by_cases hmem : hashf (uts_candidate pr rv s i).2 ∈ seen
    · rw [if_pos hmem]
      by_cases hlt : i + 1 < maxtries
      · rw [dif_pos hlt]
        have hseen2 : ∀ j < i + 1,
            hashf (uts_candidate pr rv s j).2 ∈ seen := by
          intro j hj
          rcases Nat.lt_succ_iff_lt_or_eq.mp hj with h | h
          · exact hseen j h
          · subst h; exact hmem
        have := ih (i + 1) hlt hseen2 (by omega)
        rcases this with ⟨k, hk1, hk2, hk3, hk4, hk5⟩
        have hentry : (uts_candidate pr rv s i).1
            = uts_entry pr rv s (i + 1) := rfl
        rw [hentry]
        exact ⟨k, by omega, hk2, hk3, hk4, hk5⟩
      · rw [dif_neg hlt]
        exact ⟨i, le_rfl, hi, rfl, hseen, Or.inr (by omega)⟩
    · rw [if_neg hmem]
      exact ⟨i, le_rfl, hi, rfl, hseen, Or.inl hmem⟩

/-- Claim C8: `UniqueTreeSearch.propose` asks the delegate for candidates
up to `maxtries` times, reverting the delegate's previous proposal before
each retry after the first; it returns the first candidate whose
canonical hash is not in the seen set, or the last-produced candidate if
all `maxtries` were already seen, and in all cases the returned tree's
hash is added to the seen set. -/
theorem claim_C8 {σ τ : Type} (pr : σ → σ × τ) (rv : σ → σ)
    (hashf : τ → ℕ) (seen : List ℕ) (maxtries : ℕ) (s : σ)
    (h1 : 1 ≤ maxtries) :
    ∃ k, k < maxtries ∧
      UniqueTreeSearch.propose pr rv hashf seen maxtries s
        = some ((uts_candidate pr rv s k).1, (uts_candidate pr rv s k).2,
            hashf (uts_candidate pr rv s k).2 :: seen)
      ∧ (∀ j < k, hashf (uts_candidate pr rv s j).2 ∈ seen)
      ∧ (hashf (uts_candidate pr rv s k).2 ∉ seen ∨ k = maxtries - 1) := by
  have h0 : 0 < maxtries := h1
  have := uts_loop_spec pr rv hashf seen maxtries s 0 h0
    (fun j hj => absurd hj (Nat.not_lt_zero j))
  rcases this with ⟨k, _, hk2, hk3, hk4, hk5⟩
  refine ⟨k, hk2, ?_, hk4, hk5⟩
  unfold UniqueTreeSearch.propose
  rw [if_neg (by omega)]
  simp only [uts_entry] at hk3
  rw [hk3]

theorem claim_C8_witness :
    ∃ k, k < 2 ∧
      UniqueTreeSearch.propose (fun s => (s + 1, s + 1)) id id [1] 2 0
        = some ((uts_candidate (fun s => (s + 1, s + 1)) id 0 k).1,
            (uts_candidate (fun s => (s + 1, s + 1)) id 0 k).2,
            id (uts_candidate (fun s => (s + 1, s + 1)) id 0 k).2 :: [1])
      ∧ (∀ j < k,
          id (uts_candidate (fun s => (s + 1, s + 1)) id 0 j).2 ∈ [1])
      ∧ (id (uts_candidate (fun s => (s + 1, s + 1)) id 0 k).2 ∉ [1]
          ∨ k = 2 - 1) :=
  claim_C8 (fun s => (s + 1, s + 1)) id id [1] 2 0 (by decide)

/-! ## Heap semantics for the search's mutable objects

`Recon` records, reconciliation mappings, event mappings, daughter sets
and trees are mutable Python objects aliased across the proposer, the
driver's running best, and the reconciliation enumerator.  The embedding
gives each object an address into a store.  Tree payloads and the
contents installed by the external builders (`phylo.reconcile`,
`phylo.label_events`, `phylo.enum_recon` variants, NNI rearrangements,
re-rooting, renaming, branch-length assignment) are abstracted to
distinct stamps drawn from a counter: the claims below are about which
*objects* change and which stay intact, never about the mapping entries
themselves. -/

/-- Heap objects: mapping objects (reconciliation maps, event maps,
auxiliary data), set objects (daughters), tree objects (stamps for
topology, branch lengths, node names), and `Recon` records whose six
fields are references to other objects. -/
inductive Obj where
  | dict (entries : List (ℕ × ℕ))
  | nset (elems : List ℕ)
  | tree (topo : ℕ) (dists : ℕ) (names : ℕ)
  | recon (coal_recon locus_tree locus_recon locus_events daughters
      data : ℕ)
deriving DecidableEq, Repr

/-- The object store plus a counter supplying fresh stamps for the
contents produced by the modelled external routines. -/
structure Heap where
  objs : List Obj
  ctr : ℕ
deriving DecidableEq, Repr

def Heap.get (h : Heap) (a : ℕ) : Obj := h.objs.getD a (.dict [])

def Heap.alloc (h : Heap) (o : Obj) : Heap × ℕ :=
  ({ objs := h.objs ++ [o], ctr := h.ctr }, h.objs.length)

def Heap.write (h : Heap) (a : ℕ) (o : Obj) : Heap :=
  { objs := h.objs.set a o, ctr := h.ctr }

def Heap.fresh (h : Heap) : Heap × ℕ :=
  ({ objs := h.objs, ctr := h.ctr + 1 }, h.ctr)

/-- The `coal_recon` field of a record object. -/
def Obj.crF : Obj → ℕ
  | .recon cr _ _ _ _ _ => cr
  | _ => 0

/-- The `locus_tree` field of a record object. -/
def Obj.ltF : Obj → ℕ
  | .recon _ lt _ _ _ _ => lt
  | _ => 0

/-- The `locus_recon` field of a record object. -/
def Obj.lrF : Obj → ℕ
  | .recon _ _ lr _ _ _ => lr
  | _ => 0

/-- The `locus_events` field of a record object. -/
def Obj.leF : Obj → ℕ
  | .recon _ _ _ le _ _ => le
  | _ => 0

/-- The `daughters` field of a record object. -/
def Obj.dsF : Obj → ℕ
  | .recon _ _ _ _ ds _ => ds
  | _ => 0

/-- The `data` field of a record object. -/
def Obj.daF : Obj → ℕ
  | .recon _ _ _ _ _ da => da
  | _ => 0

/-! ### The `Recon` record (source lines 300-343) -/

/-- `Recon.__init__` (lines 305-316) with `data=None`: allocate a fresh
empty auxiliary mapping and the record itself. -/
def Recon.new (h : Heap) (cr lt lr le ds : ℕ) : Heap × ℕ :=
  let a1 := h.alloc (.dict [])
  a1.1.alloc (.recon cr lt lr le ds a1.2)

/-- `Recon.copy` (lines 318-321): a new record sharing the five field
references and holding `copy.deepcopy(self.data)`; the data mapping's
entries are scalars, so the deep copy is a fresh object with equal
contents. -/
def Recon.copy (h : Heap) (r : ℕ) : Heap × ℕ :=
  match h.get r with
  | .recon cr lt lr le ds da =>
    let a1 := h.alloc (h.get da)
    a1.1.alloc (.recon cr lt lr le ds a1.2)
  | _ => (h, r)

/-- The five entries of `Recon.get_dict` (lines 324-329), read down to
object contents: Python's equality on the returned dictionary compares
the five referenced objects structurally. -/
def Recon.get_dict (h : Heap) (r : ℕ) :
    Option (Obj × Obj × Obj × Obj × Obj) :=
  match h.get r with
  | .recon cr lt lr le ds _ =>
    some (h.get cr, h.get lt, h.get lr, h.get le, h.get ds)
  | _ => none

/-- The contents of a record's auxiliary data mapping. -/
def Recon.dataObj (h : Heap) (r : ℕ) : Obj := h.get ((h.get r).daF)

/-- The contents of a record's coalescent-reconciliation mapping. -/
def Recon.coalObj (h : Heap) (r : ℕ) : Obj := h.get ((h.get r).crF)

/-- `Recon.__repr__` (lines 332-343) as written by `log_proposal`: the
canonical representation, a pure function of the six referenced objects'
contents. -/
def Recon.reprOf (h : Heap) (r : ℕ) :
    Obj × Obj × Obj × Obj × Obj × Obj :=
  match h.get r with
  | .recon cr lt lr le ds da =>
    (h.get cr, h.get lt, h.get lr, h.get le, h.get ds, h.get da)
  | o => (o, o, o, o, o, o)

/-! ### Modelled external tree and mapping routines -/

/-- Modelled from the spec: `treelib`'s deep tree copy (out of scope for
the core, spec 6) allocates a fresh tree object with equal payload. -/
def treeCopy (h : Heap) (t : ℕ) : Heap × ℕ := h.alloc (h.get t)

/-- Modelled from the spec: `phylo.recon_root(..., newCopy=False)`
re-roots the locus tree in place (spec 4.3 "re-root the new locus tree
against the species tree"); embedded as an in-place update of the tree's
topology stamp. -/
def recon_root (h : Heap) (t : ℕ) : Heap :=
  match h.get t with
  | .tree _ d n => (h.fresh).1.write t (.tree (h.fresh).2 d n)
  | _ => (h.fresh).1

/-- `rename_nodes` (source lines 543-550) renames the tree's
integer-named nodes in place; embedded as an in-place update of the
tree's names stamp (the traversal and `tree.rename` calls are
`rasmus.treelib` internals). -/
def rename_nodes (h : Heap) (t : ℕ) : Heap :=
  match h.get t with
  | .tree tp d _ => (h.fresh).1.write t (.tree tp d (h.fresh).2)
  | _ => (h.fresh).1

/-- Modelled from the spec: `treelib.set_dists_from_timestamps` (called
at source line 416 once per Monte Carlo sample) sets the locus tree's
branch lengths from the sampled timestamps in place (spec 4.4 step 4). -/
def set_dists (h : Heap) (t : ℕ) : Heap :=
  match h.get t with
  | .tree tp _ n => (h.fresh).1.write t (.tree tp (h.fresh).2 n)
  | _ => (h.fresh).1

/-- Modelled from the spec: `phylo.reconcile` and `phylo.label_events`
(LCA reconciliation, event labelling; spec 6) build and return a fresh
mapping object. -/
def freshDict (h : Heap) : Heap × ℕ :=
  let f := h.fresh
  f.1.alloc (.dict [(0, f.2)])

/-- The bounded-depth reconciliation enumerator installed by
`phylo.enum_recon` at source line 282: the mapping object it rewrites
and the number of variants it can still produce. -/
structure EnumState where
  dict : ℕ
  remaining : ℕ
deriving DecidableEq, Repr

/-- Modelled from the spec: `compbio.phylo.enum_recon` is not under
`src/`.  `next_proposal` discards the value `.next()` yields (line 261)
and returns the unchanged record object, yet must return "the same locus
tree with the new coalescent mapping" (spec 4.3) with enumerator-produced
maps "differing pairwise" (spec 8); hence each advance installs the next
variant by updating the reconciliation mapping object in place.  An
exhausted enumerator raises StopIteration (the `false` flag). -/
def enum_next (h : Heap) (e : EnumState) : Heap × EnumState × Bool :=
  if e.remaining = 0 then (h, e, false)
  else
    let f := h.fresh
    (f.1.write e.dict (.dict [(0, f.2)]),
     { dict := e.dict, remaining := e.remaining - 1 }, true)

/-! ### The proposer (source lines 200-297) -/

/-- Search-operation and driver events, traced for observability. -/
inductive Ev where
  | searchPropose
  | searchRevert
  | enumNext
  | enumStop
  | accepted
  | rejected
deriving DecidableEq, Repr

/-- The locus-tree topology search `self._locus_search`, with the generic
propose/revert contract of spec 4.2/6: `tree` is the tree object the
operator rearranges in place, `undo` the payload to restore on revert. -/
structure LocusSearch where
  tree : Option ℕ
  undo : Option Obj
deriving DecidableEq, Repr

def LocusSearch.set_tree (ls : LocusSearch) (a : ℕ) : LocusSearch :=
  { tree := some a, undo := ls.undo }

/-- Modelled from the spec: the local rearrangement operator's `propose`
(spec 4.2, 6) rearranges the search's tree in place, recording the
previous payload for `revert`. -/
def LocusSearch.propose (h : Heap) (ls : LocusSearch) :
    Heap × LocusSearch :=
  match ls.tree with
  | some a =>
    match h.get a with
    | .tree tp d n =>
      ((h.fresh).1.write a (.tree (h.fresh).2 d n),
       { tree := some a, undo := some (Obj.tree tp d n) })
    | o => ((h.fresh).1, { tree := some a, undo := some o })
  | none => (h, ls)

/-- Modelled from the spec: the rearrangement operator's `revert`
restores the tree payload recorded by the last `propose`. -/
def LocusSearch.revert (h : Heap) (ls : LocusSearch) :
    Heap × LocusSearch :=
  match ls.tree, ls.undo with
  | some a, some o => (h.write a o, ls)
  | _, _ => (h, ls)

/-- `DLCoalReconProposer` state (lines 200-217).  `i_coal_recon_junk` is
the misspelled attribute `_i_coal_recon` that line 263 creates (it is
written, never read). -/
structure Proposer where
  locus_search : LocusSearch
  num_coal_recons : ℕ
  i_coal_recons : ℕ
  i_coal_recon_junk : Option ℕ
  enum : Option EnumState
  accept_locus : Bool
  recon : Option ℕ
deriving DecidableEq, Repr

/-- Per-run parameters of the embedding: how many variants each fresh
reconciliation enumerator can produce before StopIteration (a property of
the trees handed to `phylo.enum_recon`), and the score the probability
model assigns to the candidate of each driver iteration
(`prob_dlcoal_recon_topology` composed with the stochastic
duplication-time sampler, hence a per-iteration oracle). -/
structure Cfg where
  enumSize : ℕ
  score : ℕ → WithBot ℚ

/-- `DLCoalReconProposer._recon_lca` (lines 269-289): build the LCA locus
reconciliation and event labels, the always-empty daughter set, the LCA
coalescent reconciliation, install a fresh enumerator rewriting that
coalescent reconciliation, and construct the `Recon` record. -/
def Proposer.recon_lca (cfg : Cfg) (h : Heap) (p : Proposer) (lt : ℕ) :
    Heap × Proposer × ℕ :=
  let s1 := freshDict h
  let s2 := freshDict s1.1
  let s3 := s2.1.alloc (.nset [])
  let s4 := freshDict s3.1
  let e : EnumState := { dict := s4.2, remaining := cfg.enumSize }
  let s5 := Recon.new s4.1 s4.2 lt s1.2 s2.2 s3.2
  (s5.1, { p with enum := some e, recon := some s5.2 }, s5.2)

/-- `DLCoalReconProposer.init_proposal` (lines 223-231): set the locus
tree to a copy of the coalescent tree if none is set, reset the variant
index, and build the LCA record over a copy of the search's tree. -/
def Proposer.init_proposal (cfg : Cfg) (h : Heap) (p : Proposer)
    (coal_tree : ℕ) : Heap × Proposer × ℕ :=
  let st :=
    match p.locus_search.tree with
    | none =>
      let c := treeCopy h coal_tree
      (c.1, { p with locus_search := p.locus_search.set_tree c.2 })
    | some _ => (h, p)
  let p1 := { st.2 with i_coal_recons := 0 }
  let c2 := treeCopy st.1 (p1.locus_search.tree.getD 0)
  Proposer.recon_lca cfg c2.1 p1 c2.2

/-- Lines 243-255 of `next_proposal` after the optional revert: propose
a new locus topology, clear the accept flag and the variant index, copy
the search's tree, re-root and rename it in place, and rebuild the LCA
record over it. -/
def Proposer.propose_locus_tail (cfg : Cfg) (h1 : Heap) (p1 : Proposer)
    (tr1 : List Ev) : Heap × Proposer × List Ev × ℕ :=
  let pr := LocusSearch.propose h1 p1.locus_search
  let p2 := { p1 with
              locus_search := pr.2, accept_locus := false,
              i_coal_recons := 0 }
  let tr2 := tr1 ++ [Ev.searchPropose]
  let c := treeCopy pr.1 (p2.locus_search.tree.getD 0)
  let h3 := recon_root c.1 c.2
  let h4 := rename_nodes h3 c.2
  let rl := Proposer.recon_lca cfg h4 p2 c.2
  (rl.1, rl.2.1, tr2, rl.2.2)

/-- The topology-level branch of `next_proposal` (lines 236-255): revert
the search if the current locus tree was never accepted (lines 240-241),
then propose a new topology and rebuild the record. -/
def Proposer.propose_locus (cfg : Cfg) (h : Heap) (p : Proposer)
    (tr : List Ev) : Heap × Proposer × List Ev × ℕ :=
  if p.accept_locus = false then
    let v := LocusSearch.revert h p.locus_search
    Proposer.propose_locus_tail cfg v.1 { p with locus_search := v.2 }
      (tr ++ [Ev.searchRevert])
  else Proposer.propose_locus_tail cfg h p tr

/-- `DLCoalReconProposer.next_proposal` (lines 234-266).  The recursion
after StopIteration (line 264) is embedded with explicit fuel; callers
pass `num_coal_recons + 1`, an upper bound on the depth (line 260 has
incremented `_i_coal_recons` before each recursive call, and the
recursing branch requires it below `num_coal_recons`). -/
def Proposer.next_proposal (cfg : Cfg) :
    ℕ → Heap → Proposer → List Ev → Heap × Proposer × List Ev × ℕ
  | 0, h, p, tr => (h, p, tr, p.recon.getD 0)
  | fuel + 1, h, p, tr =>
    if p.num_coal_recons ≤ p.i_coal_recons then
      Proposer.propose_locus cfg h p tr
    else
      let p1 := { p with i_coal_recons := p.i_coal_recons + 1 }
      match p1.enum with
      | some e =>
        let en := enum_next h e
        if en.2.2 then
          (en.1, { p1 with enum := some en.2.1 }, tr ++ [Ev.enumNext],
           p1.recon.getD 0)
        else
          let p2 := { p1 with
            i_coal_recon_junk := some p1.num_coal_recons }
          Proposer.next_proposal cfg fuel en.1 p2 (tr ++ [Ev.enumStop])
      | none => (h, p1, tr, p1.recon.getD 0)

/-- `DLCoalReconProposer.accept` (lines 292-293). -/
def Proposer.accept (p : Proposer) : Proposer :=
  { p with accept_locus := true }

/-- `k` successive `next_proposal` calls, each with a fresh trace (the
result's trace is the last call's own event sequence). -/
def Proposer.iterate (cfg : Cfg) :
    ℕ → Heap → Proposer → Heap × Proposer × List Ev × ℕ
  | 0, h, p => (h, p, [], p.recon.getD 0)
  | k + 1, h, p =>
    let s := Proposer.iterate cfg k h p
    Proposer.next_proposal cfg (s.2.1.num_coal_recons + 1) s.1 s.2.1 []

/-! ### The driver (source lines 85-196) -/

/-- `DLCoalRecon` driver state: the heap, the proposer, the running best
score and record, the log of canonical representations, and the event
trace. -/
structure Driver where
  heap : Heap
  proposer : Proposer
  maxp : WithBot ℚ
  maxrecon : Option ℕ
  log : List (Obj × Obj × Obj × Obj × Obj × Obj)
  trace : List Ev

/-- `DLCoalRecon.eval_proposal` (lines 154-176): score the candidate via
`prob_dlcoal_recon_topology`.  Heap effects of that call: each Monte
Carlo sample sets the candidate's locus tree branch lengths in place
(source line 416; the final sample's assignment is the one that
persists, embedded as one combined update), the breakdown `info` mapping
is allocated, and line 173 rebinds the candidate record's `data` field
to it.  The returned score is the run parameter `cfg.score i`
(stochastic in the source). -/
def Driver.eval_proposal (cfg : Cfg) (d : Driver) (i : ℕ)
    (proposal : ℕ) : Driver × WithBot ℚ :=
  let h1 := set_dists d.heap ((d.heap.get proposal).ltF)
  let inf := freshDict h1
  let h2 :=
    match inf.1.get proposal with
    | .recon cr lt lr le ds _ =>
      inf.1.write proposal (.recon cr lt lr le ds inf.2)
    | _ => inf.1
  ({ d with heap := h2 }, cfg.score i)

/-- `DLCoalRecon.eval_search` (lines 179-191): log the candidate's
canonical representation, then compare strictly with the running best:
on improvement store a fresh copy as the best, record the new best score
and call the proposer's `accept()`; otherwise call `reject()` (a no-op,
lines 296-297). -/
def Driver.eval_search (d : Driver) (p : WithBot ℚ) (proposal : ℕ) :
    Driver :=
  let d1 := { d with log := d.log ++ [Recon.reprOf d.heap proposal] }
  if d1.maxp < p then
    let c := Recon.copy d1.heap proposal
    { d1 with
      heap := c.1, maxp := p, maxrecon := some c.2,
      proposer := d1.proposer.accept,
      trace := d1.trace ++ [Ev.accepted] }
  else
    { d1 with trace := d1.trace ++ [Ev.rejected] }

/-- One iteration of the `recon` search loop (lines 125-130): score the
current proposal, decide, and obtain the next proposal. -/
def Driver.step (cfg : Cfg) (d : Driver) (i : ℕ) (proposal : ℕ) :
    Driver × ℕ :=
  let ev := Driver.eval_proposal cfg d i proposal
  let d1 := Driver.eval_search ev.1 ev.2 proposal
  let np := Proposer.next_proposal cfg (d1.proposer.num_coal_recons + 1)
    d1.heap d1.proposer d1.trace
  ({ d1 with heap := np.1, proposer := np.2.1, trace := np.2.2.1 },
   np.2.2.2)

/-- The `for i in xrange(nsearch)` loop of `recon` (lines 125-130). -/
def Driver.loop (cfg : Cfg) : ℕ → ℕ → Driver × ℕ → Driver × ℕ
  | 0, _, s => s
  | n + 1, i, s => Driver.loop cfg n (i + 1) (Driver.step cfg s.1 i s.2)

/-- `DLCoalRecon.recon` up to the loop (lines 119-124 with `init_search`,
lines 138-146): set the proposer's locus tree to a fresh copy of the
coalescent tree, reset the best to `(-inf, None)`, take the initial
proposal and copy it into the best record before any candidate is
scored. -/
def DLCoalRecon.setup (cfg : Cfg) (h : Heap) (p : Proposer)
    (coal_tree : ℕ) : Driver × ℕ :=
  let c := treeCopy h coal_tree
  let p0 := { p with locus_search := p.locus_search.set_tree c.2 }
  let ip := Proposer.init_proposal cfg c.1 p0 coal_tree
  let cp := Recon.copy ip.1 ip.2.2
  ({ heap := cp.1, proposer := ip.2.1, maxp := ⊥, maxrecon := some cp.2,
     log := [], trace := [] }, ip.2.2)

/-- `DLCoalRecon.recon` (lines 119-135): setup, `nsearch` loop
iterations, then rename the best record's locus tree nodes in place and
return the driver state holding the best record. -/
def DLCoalRecon.recon (cfg : Cfg) (h : Heap) (p : Proposer)
    (coal_tree : ℕ) (nsearch : ℕ) : Driver :=
  let fin := Driver.loop cfg nsearch 0 (DLCoalRecon.setup cfg h p coal_tree)
  let h2 :=
    match fin.1.maxrecon with
    | some b => rename_nodes fin.1.heap ((fin.1.heap.get b).ltF)
    | none => fin.1.heap
  { fin.1 with heap := h2 }

/-! ### Heap access lemmas -/

theorem Heap.get_alloc_lt (h : Heap) (o : Obj) (a : ℕ)
    (ha : a < h.objs.length) : (h.alloc o).1.get a = h.get a := by
  simp [Heap.get, Heap.alloc, List.getD_eq_getElem?_getD,
    List.getElem?_append_left ha]

theorem Heap.get_alloc_self (h : Heap) (o : Obj) :
    (h.alloc o).1.get (h.alloc o).2 = o := by
  simp [Heap.get, Heap.alloc, List.getD_eq_getElem?_getD,
    List.getElem?_concat_length]

theorem Heap.get_write_ne (h : Heap) (a : ℕ) (o : Obj) (b : ℕ)
    (hne : a ≠ b) : (h.write a o).get b = h.get b := by
  simp [Heap.get, Heap.write, List.getD_eq_getElem?_getD,
    List.getElem?_set_ne hne]

theorem Heap.get_write_self (h : Heap) (a : ℕ) (o : Obj)
    (ha : a < h.objs.length) : (h.write a o).get a = o := by
  simp [Heap.get, Heap.write, List.getD_eq_getElem?_getD,
    List.getElem?_set_self ha]

@[simp] theorem Heap.length_alloc (h : Heap) (o : Obj) :
    (h.alloc o).1.objs.length = h.objs.length + 1 := by
  simp [Heap.alloc]

@[simp] theorem Heap.length_write (h : Heap) (a : ℕ) (o : Obj) :
    (h.write a o).objs.length = h.objs.length := by
  simp [Heap.write]

@[simp] theorem Heap.alloc_addr (h : Heap) (o : Obj) :
    (h.alloc o).2 = h.objs.length := rfl

theorem Heap.get_oob (h : Heap) (a : ℕ) (ha : h.objs.length ≤ a) :
    h.get a = .dict [] := by
  simp [Heap.get, List.getD_eq_getElem?_getD,
    List.getElem?_eq_none (by omega : h.objs.length ≤ a)]

/-- Claim C6: in every iteration of the search loop's decide step, the
candidate is logged via its canonical representation regardless of the
outcome; the best record and best score are updated — the record by a
fresh `Recon.copy` of the candidate — exactly when the candidate's score
strictly exceeds the current best, in which case the proposer's
`accept()` runs (setting the accept flag), and otherwise the proposer's
`reject()` runs (a no-op, observable through the trace). -/
theorem claim_C6 (d : Driver) (p : WithBot ℚ) (a : ℕ) :
    (Driver.eval_search d p a).log = d.log ++ [Recon.reprOf d.heap a]
      ∧ (Driver.eval_search d p a).maxrecon
          = (if d.maxp < p then some (Recon.copy d.heap a).2
             else d.maxrecon)
      ∧ (Driver.eval_search d p a).maxp
          = (if d.maxp < p then p else d.maxp)
      ∧ (Driver.eval_search d p a).heap
          = (if d.maxp < p then (Recon.copy d.heap a).1 else d.heap)
      ∧ (Driver.eval_search d p a).proposer
          = (if d.maxp < p then d.proposer.accept else d.proposer)
      ∧ (Driver.eval_search d p a).trace
          = d.trace ++ [if d.maxp < p then Ev.accepted else Ev.rejected] := by
  by_cases hlt : d.maxp < p <;>
    simp [Driver.eval_search, hlt]

theorem recon_addr_lt (h : Heap) (r cr lt lr le ds da : ℕ)
    (hr : h.get r = .recon cr lt lr le ds da) : r < h.objs.length := by
  by_contra hge
  rw [Heap.get_oob h r (le_of_not_lt hge)] at hr
  simp at hr

/-- Claim C9: for a valid record, `copy()` followed by `get_dict()`
yields the same five referenced objects as the original's `get_dict()`
(the copy shares the five references), and mutating the copy's auxiliary
data mapping never changes the original record's auxiliary data (the
copy's data object is a fresh deep copy). -/
theorem claim_C9 (h : Heap) (r cr lt lr le ds da : ℕ)
    (hr : h.get r = .recon cr lt lr le ds da)
    (hda : da < h.objs.length) :
    Recon.get_dict (Recon.copy h r).1 (Recon.copy h r).2
        = Recon.get_dict (Recon.copy h r).1 r
      ∧ ∀ es : List (ℕ × ℕ),
          Recon.dataObj
              ((Recon.copy h r).1.write
                (((Recon.copy h r).1.get (Recon.copy h r).2).daF)
                (.dict es)) r
            = Recon.dataObj h r := by
  have hrL : r < h.objs.length := recon_addr_lt h r cr lt lr le ds da hr
  have hcopy : Recon.copy h r
      = ((h.alloc (h.get da)).1.alloc
          (.recon cr lt lr le ds h.objs.length)) := by
    unfold Recon.copy
    rw [hr]
    rfl
  set h1 := (h.alloc (h.get da)).1 with hh1
  have hL1 : h1.objs.length = h.objs.length + 1 := by simp [hh1]
  set h2 := (h1.alloc (.recon cr lt lr le ds h.objs.length)).1 with hh2
  have hcopy1 : (Recon.copy h r).1 = h2 := by rw [hcopy]
  have hcopy2 : (Recon.copy h r).2 = h.objs.length + 1 := by
    rw [hcopy]
    simp only [Heap.alloc_addr, hL1]
  have hget2 : h2.get (h.objs.length + 1)
      = .recon cr lt lr le ds h.objs.length := by
    have := Heap.get_alloc_self h1 (.recon cr lt lr le ds h.objs.length)
    rwa [Heap.alloc_addr, hL1] at this
  have hbr : r < h1.objs.length := by
    rw [hL1]
    exact Nat.lt_succ_of_lt hrL
  have hbda : da < h1.objs.length := by
    rw [hL1]
    exact Nat.lt_succ_of_lt hda
  have hgetr2 : h2.get r = .recon cr lt lr le ds da := by
    rw [hh2, Heap.get_alloc_lt _ _ _ hbr, hh1,
      Heap.get_alloc_lt _ _ _ hrL, hr]
  have hgetda2 : h2.get da = h.get da := by
    rw [hh2, Heap.get_alloc_lt _ _ _ hbda, hh1,
      Heap.get_alloc_lt _ _ _ hda]
  constructor
  · rw [hcopy1, hcopy2]
    unfold Recon.get_dict
    rw [hget2, hgetr2]
  · intro es
    rw [hcopy1, hcopy2, hget2]
    have hdaF : (Obj.recon cr lt lr le ds h.objs.length).daF
        = h.objs.length := rfl
    rw [hdaF]
    unfold Recon.dataObj
    have hwr : (h2.write (h.objs.length) (.dict es)).get r
        = .recon cr lt lr le ds da := by
      rw [Heap.get_write_ne h2 h.objs.length (.dict es) r
        (Nat.ne_of_gt hrL), hgetr2]
    rw [hwr, hr]
    have hda2 : (Obj.recon cr lt lr le ds da).daF = da := rfl
    rw [hda2,
      Heap.get_write_ne h2 h.objs.length (.dict es) da (Nat.ne_of_gt hda),
      hgetda2]

/-- A concrete well-formed heap for the C9 witness: a record at address 6
referencing a coalescent reconciliation (0), a locus tree (1), a locus
reconciliation (2), event labels (3), daughters (4) and data (5). -/
def c9heap : Heap :=
  { objs := [.dict [(1, 2)], .tree 5 6 7, .dict [(3, 3)], .dict [(4, 4)],
      .nset [8], .dict [(9, 9)], .recon 0 1 2 3 4 5],
    ctr := 0 }

theorem claim_C9_witness :
    Recon.get_dict (Recon.copy c9heap 6).1 (Recon.copy c9heap 6).2
        = Recon.get_dict (Recon.copy c9heap 6).1 6
      ∧ ∀ es : List (ℕ × ℕ),
          Recon.dataObj
              ((Recon.copy c9heap 6).1.write
                (((Recon.copy c9heap 6).1.get (Recon.copy c9heap 6).2).daF)
                (.dict es)) 6
            = Recon.dataObj c9heap 6 :=
  claim_C9 c9heap 6 0 1 2 3 4 5 (by decide) (by decide)

/-! ### The variant phase of the proposer (claim C7) -/

/-- The heap after `k` in-place enumerator advances on the mapping at
`cr`, starting from `h`. -/
def varHeap (h : Heap) (cr : ℕ) : ℕ → Heap
  | 0 => h
  | k + 1 =>
    { objs := h.objs.set cr (.dict [(0, h.ctr + k)]), ctr := h.ctr + k + 1 }

theorem varHeap_ctr (h : Heap) (cr : ℕ) (k : ℕ) :
    (varHeap h cr k).ctr = h.ctr + k := by
  cases k <;> rfl

theorem varHeap_length (h : Heap) (cr : ℕ) (k : ℕ) :
    (varHeap h cr k).objs.length = h.objs.length := by
  cases k <;> simp [varHeap]

theorem varHeap_get_ne (h : Heap) (cr : ℕ) (k : ℕ) (b : ℕ)
    (hne : b ≠ cr) : (varHeap h cr k).get b = h.get b := by
  cases k with
  | zero => rfl
  | succ k =>
    simp only [varHeap, Heap.get, List.getD_eq_getElem?_getD]
    rw [List.getElem?_set_ne (fun he => hne he.symm)]

theorem varHeap_get_self (h : Heap) (cr : ℕ) (k : ℕ)
    (hcr : cr < h.objs.length) (hk : 1 ≤ k) :
    (varHeap h cr k).get cr = .dict [(0, h.ctr + k - 1)] := by
  cases k with
  | zero => omega
  | succ k =>
    simp only [varHeap, Heap.get, List.getD_eq_getElem?_getD]
    rw [List.getElem?_set_self hcr]
    simp

theorem iterate_variant (cfg : Cfg) (h : Heap) (p : Proposer)
    (cr r : ℕ) (R : ℕ)
    (henum : p.enum = some ⟨cr, R⟩) (hi : p.i_coal_recons = 0)
    (hrec : p.recon = some r) (hR : p.num_coal_recons ≤ R) :
    ∀ k, k ≤ p.num_coal_recons →
      Proposer.iterate cfg k h p
        = (varHeap h cr k,
           { p with i_coal_recons := k, enum := some ⟨cr, R - k⟩ },
           if k = 0 then ([] : List Ev) else [Ev.enumNext], r) := by
  intro k hk
  induction k with
  | zero =>
    obtain ⟨ls, nc, ic, ij, en, al, rc⟩ := p
    simp only at henum hi hrec
    subst henum hi hrec
    simp [Proposer.iterate, varHeap]
  | succ k ih =>
    have hk1 : k ≤ p.num_coal_recons := Nat.le_of_succ_le hk
    have hklt : k < p.num_coal_recons := Nat.lt_of_succ_le hk
    rw [Proposer.iterate, ih hk1]
    have hcond : ¬ p.num_coal_recons ≤ k := Nat.not_le.mpr hklt
    have hrem : ¬ (R - k = 0) := by omega
    have hwobjs : ((varHeap h cr k).objs.set cr
        (.dict [(0, h.ctr + k)]))
          = h.objs.set cr (.dict [(0, h.ctr + k)]) := by
      cases k with
      | zero => rfl
      | succ m =>
        simp only [varHeap]
        rw [List.set_set]
    have hrsub : R - k - 1 = R - (k + 1) := by omega
    rw [Proposer.next_proposal]
    simp only [if_neg hcond, enum_next, Heap.fresh, Heap.write,
      varHeap_ctr, if_neg hrem, hwobjs]
    simp only [hrsub, hrec]
    simp [varHeap]

/-! ### `_recon_lca` and the topology-switch branch (claim C7) -/

theorem recon_lca_spec (cfg : Cfg) (h : Heap) (p : Proposer)
    (lt0 : ℕ) :
    (Proposer.recon_lca cfg h p lt0).2.2 = h.objs.length + 5
      ∧ (Proposer.recon_lca cfg h p lt0).2.1
          = { p with enum := some ⟨h.objs.length + 3, cfg.enumSize⟩,
                     recon := some (h.objs.length + 5) }
      ∧ (Proposer.recon_lca cfg h p lt0).1.objs.length
          = h.objs.length + 6
      ∧ (Proposer.recon_lca cfg h p lt0).1.get (h.objs.length + 5)
          = .recon (h.objs.length + 3) lt0 h.objs.length
              (h.objs.length + 1) (h.objs.length + 2) (h.objs.length + 4)
      ∧ (∀ b, b < h.objs.length →
          (Proposer.recon_lca cfg h p lt0).1.get b = h.get b) := by
  simp only [Proposer.recon_lca, Recon.new, freshDict, Heap.fresh,
    Heap.alloc]
  refine ⟨by simp, by simp, by simp, ?_, ?_⟩
  · simp only [Heap.get, List.getD_eq_getElem?_getD, List.append_assoc]
    rw [List.getElem?_append_right (by simp)]
    simp
  · intro b hb
    simp only [Heap.get, List.getD_eq_getElem?_getD, List.append_assoc]
    rw [List.getElem?_append_left hb]

theorem LocusSearch.revert_pair (h : Heap) (ls : LocusSearch) :
    (LocusSearch.revert h ls).2 = ls
      ∧ ((LocusSearch.revert h ls).1).objs.length = h.objs.length
      ∧ ((LocusSearch.revert h ls).1).ctr = h.ctr
      ∧ (∀ b, b ≠ ls.tree.getD 0 →
          ((LocusSearch.revert h ls).1).get b = h.get b) := by
  cases hls : ls.tree with
  | none => simp [LocusSearch.revert, hls]
  | some a =>
    cases hlu : ls.undo with
    | none => simp [LocusSearch.revert, hls, hlu]
    | some o =>
      refine ⟨by simp [LocusSearch.revert, hls, hlu], by
        simp [LocusSearch.revert, hls, hlu, Heap.write], by
        simp [LocusSearch.revert, hls, hlu, Heap.write], ?_⟩
      intro b hb
      simp only [hls, Option.getD_some] at hb
      simp only [LocusSearch.revert, hls, hlu]
      exact Heap.get_write_ne h a o b (Ne.symm hb)

theorem LocusSearch.propose_pair (h : Heap) (ls : LocusSearch) :
    ((LocusSearch.propose h ls).2).tree = ls.tree
      ∧ ((LocusSearch.propose h ls).1).objs.length = h.objs.length
      ∧ (∀ b, b ≠ ls.tree.getD 0 →
          ((LocusSearch.propose h ls).1).get b = h.get b) := by
  cases hls : ls.tree with
  | none => simp [LocusSearch.propose, hls]
  | some a =>
    have hgd : ls.tree.getD 0 = a := by rw [hls]; rfl
    cases hget : h.get a with
    | tree tp d n =>
      refine ⟨by simp [LocusSearch.propose, hls, hget],
        by simp [LocusSearch.propose, hls, hget, Heap.write, Heap.fresh],
        ?_⟩
      intro b hb
      simp only [Option.getD_some] at hb
      simp only [LocusSearch.propose, hls, hget]
      rw [Heap.get_write_ne _ a _ b (Ne.symm hb)]
      rfl
    | dict es =>
      exact ⟨by simp [LocusSearch.propose, hls, hget],
        by simp [LocusSearch.propose, hls, hget, Heap.fresh],
        fun b _ => by simp [LocusSearch.propose, hls, hget]; rfl⟩
    | nset es =>
      exact ⟨by simp [LocusSearch.propose, hls, hget],
        by simp [LocusSearch.propose, hls, hget, Heap.fresh],
        fun b _ => by simp [LocusSearch.propose, hls, hget]; rfl⟩
    | recon a1 a2 a3 a4 a5 a6 =>
      exact ⟨by simp [LocusSearch.propose, hls, hget],
        by simp [LocusSearch.propose, hls, hget, Heap.fresh],
        fun b _ => by simp [LocusSearch.propose, hls, hget]; rfl⟩

@[simp] theorem Heap.get_fresh (h : Heap) (a : ℕ) :
    (h.fresh).1.get a = h.get a := rfl

theorem recon_root_frame (h : Heap) (t : ℕ) :
    (recon_root h t).objs.length = h.objs.length
      ∧ (∀ b, b ≠ t → (recon_root h t).get b = h.get b) := by
  cases hget : h.get t with
  | tree tp d n =>
    refine ⟨by simp [recon_root, hget, Heap.write, Heap.fresh], ?_⟩
    intro b hb
    simp only [recon_root, hget]
    rw [Heap.get_write_ne _ t _ b (Ne.symm hb)]
    rfl
  | dict es => exact ⟨by simp [recon_root, hget, Heap.fresh],
      fun b hb => by simp [recon_root, hget]⟩
  | nset es => exact ⟨by simp [recon_root, hget, Heap.fresh],
      fun b hb => by simp [recon_root, hget]⟩
  | recon a1 a2 a3 a4 a5 a6 => exact ⟨by simp [recon_root, hget, Heap.fresh],
      fun b hb => by simp [recon_root, hget]⟩

theorem rename_nodes_frame (h : Heap) (t : ℕ) :
    (rename_nodes h t).objs.length = h.objs.length
      ∧ (∀ b, b ≠ t → (rename_nodes h t).get b = h.get b) := by
  cases hget : h.get t with
  | tree tp d n =>
    refine ⟨by simp [rename_nodes, hget, Heap.write, Heap.fresh], ?_⟩
    intro b hb
    simp only [rename_nodes, hget]
    rw [Heap.get_write_ne _ t _ b (Ne.symm hb)]
    rfl
  | dict es => exact ⟨by simp [rename_nodes, hget, Heap.fresh],
      fun b hb => by simp [rename_nodes, hget]⟩
  | nset es => exact ⟨by simp [rename_nodes, hget, Heap.fresh],
      fun b hb => by simp [rename_nodes, hget]⟩
  | recon a1 a2 a3 a4 a5 a6 => exact ⟨by simp [rename_nodes, hget, Heap.fresh],
      fun b hb => by simp [rename_nodes, hget]⟩

theorem set_dists_frame (h : Heap) (t : ℕ) :
    (set_dists h t).objs.length = h.objs.length
      ∧ (∀ b, b ≠ t → (set_dists h t).get b = h.get b) := by
  cases hget : h.get t with
  | tree tp d n =>
    refine ⟨by simp [set_dists, hget, Heap.write, Heap.fresh], ?_⟩
    intro b hb
    simp only [set_dists, hget]
    rw [Heap.get_write_ne _ t _ b (Ne.symm hb)]
    rfl
  | dict es => exact ⟨by simp [set_dists, hget, Heap.fresh],
      fun b hb => by simp [set_dists, hget]⟩
  | nset es => exact ⟨by simp [set_dists, hget, Heap.fresh],
      fun b hb => by simp [set_dists, hget]⟩
  | recon a1 a2 a3 a4 a5 a6 => exact ⟨by simp [set_dists, hget, Heap.fresh],
      fun b hb => by simp [set_dists, hget]⟩

theorem propose_locus_tail_spec (cfg : Cfg) (h1 : Heap) (p1 : Proposer)
    (tr1 : List Ev) :
    (Proposer.propose_locus_tail cfg h1 p1 tr1).2.2.2
        = h1.objs.length + 6
      ∧ (Proposer.propose_locus_tail cfg h1 p1 tr1).1.get
            (h1.objs.length + 6)
          = .recon (h1.objs.length + 4) h1.objs.length
              (h1.objs.length + 1) (h1.objs.length + 2)
              (h1.objs.length + 3) (h1.objs.length + 5)
      ∧ (Proposer.propose_locus_tail cfg h1 p1 tr1).2.2.1
          = tr1 ++ [Ev.searchPropose]
      ∧ (Proposer.propose_locus_tail cfg h1 p1 tr1).2.1
          = { p1 with
              locus_search := (LocusSearch.propose h1 p1.locus_search).2,
              accept_locus := false, i_coal_recons := 0,
              enum := some ⟨h1.objs.length + 4, cfg.enumSize⟩,
              recon := some (h1.objs.length + 6) }
      ∧ (Proposer.propose_locus_tail cfg h1 p1 tr1).1.objs.length
          = h1.objs.length + 7
      ∧ (∀ b, b < h1.objs.length → b ≠ p1.locus_search.tree.getD 0 →
          (Proposer.propose_locus_tail cfg h1 p1 tr1).1.get b
            = h1.get b) := by
  obtain ⟨hpt, hplen, hpframe⟩ :=
    LocusSearch.propose_pair h1 p1.locus_search
  set hc : Heap :=
    ((LocusSearch.propose h1 p1.locus_search).1.alloc
      ((LocusSearch.propose h1 p1.locus_search).1.get
        (p1.locus_search.tree.getD 0))).1 with hhc
  have hclen : hc.objs.length = h1.objs.length + 1 := by
    rw [hhc, Heap.length_alloc, hplen]
  obtain ⟨hr3len, hr3frame⟩ := recon_root_frame hc h1.objs.length
  set h3 : Heap := recon_root hc h1.objs.length with hh3
  have h3len : h3.objs.length = h1.objs.length + 1 := by
    rw [hr3len, hclen]
  obtain ⟨hr4len, hr4frame⟩ := rename_nodes_frame h3 h1.objs.length
  set h4 : Heap := rename_nodes h3 h1.objs.length with hh4
  have h4len : h4.objs.length = h1.objs.length + 1 := by
    rw [hr4len, h3len]
  set p2 : Proposer :=
    { p1 with
      locus_search := (LocusSearch.propose h1 p1.locus_search).2,
      accept_locus := false, i_coal_recons := 0 } with hp2
  have key : Proposer.propose_locus_tail cfg h1 p1 tr1
      = ((Proposer.recon_lca cfg h4 p2 h1.objs.length).1,
         (Proposer.recon_lca cfg h4 p2 h1.objs.length).2.1,
         tr1 ++ [Ev.searchPropose],
         (Proposer.recon_lca cfg h4 p2 h1.objs.length).2.2) := by
    unfold Proposer.propose_locus_tail
    simp only [hpt, treeCopy, Heap.alloc_addr, hplen]
  obtain ⟨hs1, hs2, hs3, hs4, hs5⟩ := recon_lca_spec cfg h4 p2 h1.objs.length
  rw [h4len] at hs1 hs2 hs3 hs4 hs5
  have e15 : h1.objs.length + 1 + 5 = h1.objs.length + 6 := by omega
  have e13 : h1.objs.length + 1 + 3 = h1.objs.length + 4 := by omega
  have e11 : h1.objs.length + 1 + 1 = h1.objs.length + 2 := by omega
  have e12 : h1.objs.length + 1 + 2 = h1.objs.length + 3 := by omega
  have e14 : h1.objs.length + 1 + 4 = h1.objs.length + 5 := by omega
  have e16 : h1.objs.length + 1 + 6 = h1.objs.length + 7 := by omega
  rw [e15] at hs1 hs2 hs4
  rw [e13] at hs2 hs4
  rw [e16] at hs3
  rw [e11, e12, e14] at hs4
  refine ⟨?_, ?_, ?_, ?_, ?_, ?_⟩
  · rw [key]
    exact hs1
  · rw [key]
    exact hs4
  · rw [key]
  · rw [key, hs2, hp2]
  · rw [key, hs3]
  · intro b hb hbne
    rw [key]
    have hb4 : b < h1.objs.length + 1 := Nat.lt_succ_of_lt hb
    rw [hs5 b hb4, hr4frame b (Nat.ne_of_lt hb), hr3frame b (Nat.ne_of_lt hb),
      hhc, Heap.get_alloc_lt _ _ _ (by rw [hplen]; exact hb)]
    exact hpframe b hbne

theorem propose_locus_spec (cfg : Cfg) (h : Heap) (p : Proposer)
    (tr : List Ev) :
    (Proposer.propose_locus cfg h p tr).2.2.2 = h.objs.length + 6
      ∧ (Proposer.propose_locus cfg h p tr).1.get (h.objs.length + 6)
          = .recon (h.objs.length + 4) h.objs.length (h.objs.length + 1)
              (h.objs.length + 2) (h.objs.length + 3) (h.objs.length + 5)
      ∧ (Proposer.propose_locus cfg h p tr).2.2.1
          = (if p.accept_locus = false then tr ++ [Ev.searchRevert]
             else tr) ++ [Ev.searchPropose]
      ∧ (Proposer.propose_locus cfg h p tr).2.1.num_coal_recons
          = p.num_coal_recons
      ∧ (Proposer.propose_locus cfg h p tr).2.1.i_coal_recons = 0
      ∧ (Proposer.propose_locus cfg h p tr).2.1.accept_locus = false
      ∧ (Proposer.propose_locus cfg h p tr).2.1.enum
          = some ⟨h.objs.length + 4, cfg.enumSize⟩
      ∧ (Proposer.propose_locus cfg h p tr).2.1.recon
          = some (h.objs.length + 6)
      ∧ (Proposer.propose_locus cfg h p tr).2.1.locus_search.tree
          = p.locus_search.tree
      ∧ (Proposer.propose_locus cfg h p tr).1.objs.length
          = h.objs.length + 7
      ∧ (∀ b, b < h.objs.length → b ≠ p.locus_search.tree.getD 0 →
          (Proposer.propose_locus cfg h p tr).1.get b = h.get b) := by
  cases hacc : p.accept_locus with
  | true =>
    have hpl : Proposer.propose_locus cfg h p tr
        = Proposer.propose_locus_tail cfg h p tr := by
      unfold Proposer.propose_locus
      rw [hacc]
      rfl
    obtain ⟨t1, t2, t3, t4, t5, t6⟩ := propose_locus_tail_spec cfg h p tr
    rw [hpl]
    refine ⟨t1, t2, ?_, ?_, ?_, ?_, ?_, ?_, ?_, t5, t6⟩
    · rw [t3]
      rfl
    · rw [t4]
    · rw [t4]
    · rw [t4]
    · rw [t4]
    · rw [t4]
    · rw [t4]
      exact (LocusSearch.propose_pair h p.locus_search).1
  | false =>
    obtain ⟨hv2, hvlen, hvctr, hvframe⟩ :=
      LocusSearch.revert_pair h p.locus_search
    have hpp : ({ p with
        locus_search := (LocusSearch.revert h p.locus_search).2 }
          : Proposer) = p := by
      rw [hv2]
    have hpl : Proposer.propose_locus cfg h p tr
        = Proposer.propose_locus_tail cfg
            (LocusSearch.revert h p.locus_search).1 p
            (tr ++ [Ev.searchRevert]) := by
      unfold Proposer.propose_locus
      rw [hacc]
      simp only [hv2]
      rw [← hacc]
      rfl
    obtain ⟨t1, t2, t3, t4, t5, t6⟩ := propose_locus_tail_spec cfg
      (LocusSearch.revert h p.locus_search).1 p (tr ++ [Ev.searchRevert])
    rw [← hpl] at t1 t2 t3 t4 t5 t6
    rw [hvlen] at t1 t2 t4 t5
    refine ⟨t1, t2, ?_, ?_, ?_, ?_, ?_, ?_, ?_, t5, ?_⟩
    · rw [t3]
      rfl
    · rw [t4]
    · rw [t4]
    · rw [t4]
    · rw [t4]
    · rw [t4]
    · rw [t4]
      exact (LocusSearch.propose_pair
        (LocusSearch.revert h p.locus_search).1 p.locus_search).1
    · intro b hb hbne
      rw [t6 b (by rw [hvlen]; exact hb) hbne]
      exact hvframe b hbne

/-- Claim C7: with at least `num_coal_recons` enumerator variants
remaining after `_recon_lca`, the next `num_coal_recons` (default 5)
`next_proposal()` calls return the same record object — hence the same
locus tree object — while the coalescent reconciliations installed by
consecutive calls differ pairwise; the following call switches to a new
locus-tree topology (a new record with a new locus tree object), and, at
that switch, if the current locus tree was never accepted the topology
search is reverted before the new move is proposed (trace
`[searchRevert, searchPropose]`; `[searchPropose]` when accepted). -/
theorem claim_C7 (cfg : Cfg) (h : Heap) (p : Proposer)
    (cr lt lr le ds da r : ℕ) (R : ℕ)
    (henum : p.enum = some ⟨cr, R⟩)
    (hi : p.i_coal_recons = 0)
    (hrec : p.recon = some r)
    (hR : p.num_coal_recons ≤ R)
    (hobj : h.get r = .recon cr lt lr le ds da)
    (hcr : cr < h.objs.length)
    (hcrr : cr ≠ r)
    (hlt : lt < h.objs.length) :
    (∀ k, k < p.num_coal_recons + 1 → 1 ≤ k →
        (Proposer.iterate cfg k h p).2.2.2 = r
          ∧ (Proposer.iterate cfg k h p).1.get r
              = .recon cr lt lr le ds da)
      ∧ (∀ j, j < p.num_coal_recons + 1 → ∀ k, k < p.num_coal_recons + 1 →
          1 ≤ j → j < k →
          Recon.coalObj (Proposer.iterate cfg j h p).1 r
            ≠ Recon.coalObj (Proposer.iterate cfg k h p).1 r)
      ∧ (Proposer.iterate cfg (p.num_coal_recons + 1) h p).2.2.2 ≠ r
      ∧ ((Proposer.iterate cfg (p.num_coal_recons + 1) h p).1.get
          (Proposer.iterate cfg (p.num_coal_recons + 1) h p).2.2.2).ltF
          ≠ lt
      ∧ (p.accept_locus = false →
          (Proposer.iterate cfg (p.num_coal_recons + 1) h p).2.2.1
            = [Ev.searchRevert, Ev.searchPropose])
      ∧ (p.accept_locus = true →
          (Proposer.iterate cfg (p.num_coal_recons + 1) h p).2.2.1
            = [Ev.searchPropose]) := by
  have hvar := iterate_variant cfg h p cr r R henum hi hrec hR
  have hrL : r < h.objs.length := recon_addr_lt h r cr lt lr le ds da hobj
  have hgetr : ∀ k, (varHeap h cr k).get r = .recon cr lt lr le ds da :=
    fun k => (varHeap_get_ne h cr k r (Ne.symm hcrr)).trans hobj
  have hcoal : ∀ k, 1 ≤ k → k ≤ p.num_coal_recons →
      Recon.coalObj (Proposer.iterate cfg k h p).1 r
        = .dict [(0, h.ctr + k - 1)] := by
    intro k hk1 hk2
    rw [hvar k hk2]
    unfold Recon.coalObj
    rw [hgetr k]
    have hcrF : (Obj.recon cr lt lr le ds da).crF = cr := rfl
    rw [hcrF, varHeap_get_self h cr k hcr hk1]
  set pnum : Proposer :=
    { p with
      i_coal_recons := p.num_coal_recons,
      enum := some ⟨cr, R - p.num_coal_recons⟩ } with hpnum
  have hstep : Proposer.iterate cfg (p.num_coal_recons + 1) h p
      = Proposer.propose_locus cfg (varHeap h cr p.num_coal_recons)
          pnum [] := by
    rw [Proposer.iterate, hvar p.num_coal_recons (le_refl _)]
    rw [Proposer.next_proposal]
    rw [if_pos (le_refl p.num_coal_recons)]
  obtain ⟨s1, s2, s3, s4, s5, s6, s7, s8, s9, s10, s11⟩ :=
    propose_locus_spec cfg (varHeap h cr p.num_coal_recons) pnum []
  rw [varHeap_length] at s1 s2
  refine ⟨?_, ?_, ?_, ?_, ?_, ?_⟩
  · intro k hk hk1
    rw [hvar k (by omega)]
    exact ⟨rfl, hgetr k⟩
  · intro j hj k hk h1j hjk
    rw [hcoal j h1j (by omega), hcoal k (by omega) (by omega)]
    intro heq
    simp only [Obj.dict.injEq, List.cons.injEq, Prod.mk.injEq] at heq
    omega
  · rw [hstep, s1]
    omega
  · rw [hstep, s1, s2]
    have : (Obj.recon (h.objs.length + 4) h.objs.length
        (h.objs.length + 1) (h.objs.length + 2) (h.objs.length + 3)
        (h.objs.length + 5)).ltF = h.objs.length := rfl
    rw [this]
    omega
  · intro hacc
    rw [hstep, s3]
    have haccn : pnum.accept_locus = false := hacc
    rw [haccn]
    rfl
  · intro hacc
    rw [hstep, s3]
    have haccn : pnum.accept_locus = true := hacc
    rw [haccn]
    rfl

/-- A concrete run configuration for the C7 witness: five enumerator
variants per record (the default `num_coal_recons`). -/
def c7cfg : Cfg := { enumSize := 5, score := fun _ => ⊥ }

/-- A one-tree heap to start the C7 witness from. -/
def c7h0 : Heap := { objs := [Obj.tree 0 0 0], ctr := 100 }

/-- A freshly constructed proposer (lines 200-217 defaults). -/
def c7p0 : Proposer :=
  { locus_search := { tree := none, undo := none }, num_coal_recons := 5,
    i_coal_recons := 0, i_coal_recon_junk := none, enum := none,
    accept_locus := false, recon := none }

/-- The heap after the initial proposal of the C7 witness run. -/
def c7h : Heap := (Proposer.init_proposal c7cfg c7h0 c7p0 0).1

/-- The proposer after the initial proposal of the C7 witness run. -/
def c7p : Proposer := (Proposer.init_proposal c7cfg c7h0 c7p0 0).2.1

theorem claim_C7_witness :
    (∀ k, k < 6 → 1 ≤ k →
        (Proposer.iterate c7cfg k c7h c7p).2.2.2 = 8
          ∧ (Proposer.iterate c7cfg k c7h c7p).1.get 8
              = .recon 6 2 3 4 5 7)
      ∧ (∀ j, j < 6 → ∀ k, k < 6 → 1 ≤ j → j < k →
          Recon.coalObj (Proposer.iterate c7cfg j c7h c7p).1 8
            ≠ Recon.coalObj (Proposer.iterate c7cfg k c7h c7p).1 8)
      ∧ (Proposer.iterate c7cfg 6 c7h c7p).2.2.2 ≠ 8
      ∧ ((Proposer.iterate c7cfg 6 c7h c7p).1.get
          (Proposer.iterate c7cfg 6 c7h c7p).2.2.2).ltF ≠ 2
      ∧ (c7p.accept_locus = false →
          (Proposer.iterate c7cfg 6 c7h c7p).2.2.1
            = [Ev.searchRevert, Ev.searchPropose])
      ∧ (c7p.accept_locus = true →
          (Proposer.iterate c7cfg 6 c7h c7p).2.2.1
            = [Ev.searchPropose]) :=
  claim_C7 c7cfg c7h c7p 6 2 3 4 5 7 8 5 (by decide) (by decide)
    (by decide) (by decide) (by decide) (by decide) (by decide) (by decide)

/-! ### The driver loop keeps a best record (claims C10, C1) -/

theorem eval_search_maxrecon (d : Driver) (p : WithBot ℚ) (a : ℕ) :
    (Driver.eval_search d p a).maxrecon
      = (if d.maxp < p then some (Recon.copy d.heap a).2
         else d.maxrecon) := by
  by_cases hlt : d.maxp < p <;> simp [Driver.eval_search, hlt]

theorem eval_search_maxp (d : Driver) (p : WithBot ℚ) (a : ℕ) :
    (Driver.eval_search d p a).maxp = (if d.maxp < p then p else d.maxp) := by
  by_cases hlt : d.maxp < p <;> simp [Driver.eval_search, hlt]

theorem eval_proposal_fields (cfg : Cfg) (d : Driver) (i : ℕ) (a : ℕ) :
    (Driver.eval_proposal cfg d i a).1.maxrecon = d.maxrecon
      ∧ (Driver.eval_proposal cfg d i a).1.maxp = d.maxp
      ∧ (Driver.eval_proposal cfg d i a).2 = cfg.score i := by
  exact ⟨rfl, rfl, rfl⟩

theorem step_best (cfg : Cfg) (d : Driver) (i : ℕ) (a : ℕ) :
    (Driver.step cfg d i a).1.maxrecon
        = (if d.maxp < cfg.score i then
            some (Recon.copy (Driver.eval_proposal cfg d i a).1.heap a).2
           else d.maxrecon)
      ∧ (Driver.step cfg d i a).1.maxp
          = (if d.maxp < cfg.score i then cfg.score i else d.maxp) := by
  obtain ⟨e1, e2, e3⟩ := eval_proposal_fields cfg d i a
  unfold Driver.step
  simp only []
  constructor
  · rw [eval_search_maxrecon, e1, e2, e3]
  · rw [eval_search_maxp, e2, e3]

theorem loop_keep (cfg : Cfg) (n : ℕ) :
    ∀ (i : ℕ) (s : Driver × ℕ), s.1.maxp = ⊥ →
      (∀ j, i ≤ j → j < i + n → cfg.score j = ⊥) →
      (Driver.loop cfg n i s).1.maxrecon = s.1.maxrecon
        ∧ (Driver.loop cfg n i s).1.maxp = ⊥ := by
  induction n with
  | zero => exact fun i s hmax _ => ⟨rfl, hmax⟩
  | succ n ih =>
    intro i s hmax hsc
    obtain ⟨b1, b2⟩ := step_best cfg s.1 i s.2
    have hsci : cfg.score i = ⊥ := hsc i (le_refl i) (by omega)
    have hnot : ¬ s.1.maxp < cfg.score i := by
      rw [hsci, hmax]
      exact lt_irrefl ⊥
    rw [if_neg hnot] at b1 b2
    rw [Driver.loop]
    have hrec := ih (i + 1) (Driver.step cfg s.1 i s.2)
      (b2.trans hmax) (fun j hj1 hj2 => hsc j (by omega) (by omega))
    exact ⟨hrec.1.trans b1, hrec.2⟩

theorem loop_isSome (cfg : Cfg) (n : ℕ) :
    ∀ (i : ℕ) (s : Driver × ℕ), s.1.maxrecon.isSome →
      (Driver.loop cfg n i s).1.maxrecon.isSome := by
  induction n with
  | zero => exact fun i s hs => hs
  | succ n ih =>
    intro i s hs
    rw [Driver.loop]
    refine ih (i + 1) _ ?_
    obtain ⟨b1, _⟩ := step_best cfg s.1 i s.2
    rw [b1]
    split
    · rfl
    · exact hs

/-- Claim C10: for every `nsearch`, `recon(nsearch)` returns a record,
never an empty result: the initial proposal is copied into the best
record before any candidate is scored, and when no candidate's score
strictly exceeds negative infinity (every score is the sentinel, or
`nsearch = 0`) the returned best is exactly that pre-loop copy of the
initial LCA proposal. -/
theorem claim_C10 (cfg : Cfg) (h : Heap) (p : Proposer) (ct n : ℕ) :
    (DLCoalRecon.recon cfg h p ct n).maxrecon ≠ none
      ∧ ((∀ i, i < n → cfg.score i = ⊥) →
          (DLCoalRecon.recon cfg h p ct n).maxrecon
            = (DLCoalRecon.setup cfg h p ct).1.maxrecon) := by
  have hfin : (DLCoalRecon.recon cfg h p ct n).maxrecon
      = (Driver.loop cfg n 0 (DLCoalRecon.setup cfg h p ct)).1.maxrecon := by
    rfl
  constructor
  · rw [hfin]
    have hsome : (DLCoalRecon.setup cfg h p ct).1.maxrecon.isSome := rfl
    have := loop_isSome cfg n 0 (DLCoalRecon.setup cfg h p ct) hsome
    intro hnone
    rw [hnone] at this
    exact Bool.noConfusion this
  · intro hsc
    rw [hfin]
    exact (loop_keep cfg n 0 (DLCoalRecon.setup cfg h p ct) rfl
      (fun j hj1 hj2 => hsc j (by omega))).1

theorem claim_C10_witness :
    (DLCoalRecon.recon c7cfg c7h0 c7p0 0 2).maxrecon ≠ none
      ∧ (DLCoalRecon.recon c7cfg c7h0 c7p0 0 2).maxrecon
          = (DLCoalRecon.setup c7cfg c7h0 c7p0 0).1.maxrecon :=
  ⟨(claim_C10 c7cfg c7h0 c7p0 0 2).1,
   (claim_C10 c7cfg c7h0 c7p0 0 2).2 (fun _ _ => rfl)⟩

/-! ### Heap effects of one full search iteration (claim C1) -/

/-- The mapping object the proposer's reconciliation enumerator rewrites
in place (0 when no enumerator is installed). -/
def enumDict (p : Proposer) : ℕ :=
  match p.enum with
  | some e => e.dict
  | none => 0

theorem Recon.copy_frame (h : Heap) (r : ℕ) :
    h.objs.length ≤ (Recon.copy h r).1.objs.length
      ∧ (∀ x, x < h.objs.length → (Recon.copy h r).1.get x = h.get x) := by
  cases hget : h.get r with
  | recon cr lt lr le ds da =>
    have hred : Recon.copy h r
        = ((h.alloc (h.get da)).1.alloc
            (.recon cr lt lr le ds h.objs.length)) := by
      unfold Recon.copy
      rw [hget]
      rfl
    constructor
    · rw [hred]
      simp
      omega
    · intro x hx
      rw [hred, Heap.get_alloc_lt _ _ _ (by simp; omega),
        Heap.get_alloc_lt _ _ _ hx]
  | dict es => exact ⟨by simp [Recon.copy, hget], fun x hx => by
      simp [Recon.copy, hget]⟩
  | nset es => exact ⟨by simp [Recon.copy, hget], fun x hx => by
      simp [Recon.copy, hget]⟩
  | tree tp d n => exact ⟨by simp [Recon.copy, hget], fun x hx => by
      simp [Recon.copy, hget]⟩

@[simp] theorem Heap.fresh_length (h : Heap) :
    (h.fresh).1.objs.length = h.objs.length := rfl

theorem eval_proposal_heap (cfg : Cfg) (d : Driver) (i : ℕ)
    (a cr lt lr le ds da : ℕ)
    (hget : d.heap.get a = .recon cr lt lr le ds da)
    (ha : a < d.heap.objs.length) (halt : a ≠ lt) :
    (Driver.eval_proposal cfg d i a).1.heap.get a
        = .recon cr lt lr le ds d.heap.objs.length
      ∧ (∀ x, x < d.heap.objs.length → x ≠ a → x ≠ lt →
          (Driver.eval_proposal cfg d i a).1.heap.get x = d.heap.get x)
      ∧ (Driver.eval_proposal cfg d i a).1.heap.objs.length
          = d.heap.objs.length + 1 := by
  have hltF : (d.heap.get a).ltF = lt := by rw [hget]; rfl
  obtain ⟨hsdlen, hsdframe⟩ := set_dists_frame d.heap lt
  have hsda : (set_dists d.heap lt).get a = .recon cr lt lr le ds da :=
    (hsdframe a halt).trans hget
  have hfd2 : (freshDict (set_dists d.heap lt)).2 = d.heap.objs.length := by
    simp [freshDict, hsdlen]
  have hfdlen : (freshDict (set_dists d.heap lt)).1.objs.length
      = d.heap.objs.length + 1 := by
    simp [freshDict, Heap.fresh, hsdlen]
  have hfda : (freshDict (set_dists d.heap lt)).1.get a
      = .recon cr lt lr le ds da := by
    simp only [freshDict]
    rw [Heap.get_alloc_lt _ _ _ (by simp [Heap.fresh, hsdlen]; omega),
      Heap.get_fresh, hsda]
  have hkey : (Driver.eval_proposal cfg d i a).1.heap
      = (freshDict (set_dists d.heap lt)).1.write a
          (.recon cr lt lr le ds d.heap.objs.length) := by
    unfold Driver.eval_proposal
    simp only [hltF, hfda, hfd2]
  refine ⟨?_, ?_, ?_⟩
  · rw [hkey, Heap.get_write_self _ _ _ (by rw [hfdlen]; omega)]
  · intro x hx hxa hxlt
    rw [hkey, Heap.get_write_ne _ _ _ _ (fun he => hxa he.symm)]
    simp only [freshDict]
    rw [Heap.get_alloc_lt _ _ _ (by simp [Heap.fresh, hsdlen]; omega),
      Heap.get_fresh]
    exact hsdframe x hxlt
  · rw [hkey, Heap.length_write, hfdlen]

theorem next_proposal_effects (cfg : Cfg) (fuel : ℕ) :
    ∀ (h : Heap) (p : Proposer) (tr : List Ev),
    h.objs.length
        ≤ ((Proposer.next_proposal cfg fuel h p tr).1).objs.length
      ∧ (∀ x, x < h.objs.length → x ≠ enumDict p →
          x ≠ p.locus_search.tree.getD 0 →
          ((Proposer.next_proposal cfg fuel h p tr).1).get x = h.get x)
      ∧ ((Proposer.next_proposal cfg fuel h p tr).2.1.locus_search.tree
          = p.locus_search.tree)
      ∧ (((Proposer.next_proposal cfg fuel h p tr).2.2.2
            = p.recon.getD 0
          ∧ enumDict (Proposer.next_proposal cfg fuel h p tr).2.1
              = enumDict p
          ∧ (Proposer.next_proposal cfg fuel h p tr).2.1.recon = p.recon)
        ∨ ((Proposer.next_proposal cfg fuel h p tr).2.2.2
              = h.objs.length + 6
            ∧ enumDict (Proposer.next_proposal cfg fuel h p tr).2.1
                = h.objs.length + 4
            ∧ (Proposer.next_proposal cfg fuel h p tr).2.1.recon
                = some (h.objs.length + 6)
            ∧ ((Proposer.next_proposal cfg fuel h p tr).1).get
                  (h.objs.length + 6)
                = .recon (h.objs.length + 4) h.objs.length
                    (h.objs.length + 1) (h.objs.length + 2)
                    (h.objs.length + 3) (h.objs.length + 5)
            ∧ ((Proposer.next_proposal cfg fuel h p tr).1).objs.length
                = h.objs.length + 7)) := by
  induction fuel with
  | zero =>
    intro h p tr
    exact ⟨le_refl _, fun x _ _ _ => rfl, rfl, Or.inl ⟨rfl, rfl, rfl⟩⟩
  | succ fuel ih =>
    intro h p tr
    by_cases hge : p.num_coal_recons ≤ p.i_coal_recons
    · have hkey : Proposer.next_proposal cfg (fuel + 1) h p tr
          = Proposer.propose_locus cfg h p tr := by
        rw [Proposer.next_proposal, if_pos hge]
      rw [hkey]
      obtain ⟨s1, s2, s3, s4, s5, s6, s7, s8, s9, s10, s11⟩ :=
        propose_locus_spec cfg h p tr
      refine ⟨by rw [s10]; omega, fun x hx _ hxl => s11 x hx hxl, s9,
        Or.inr ⟨s1, ?_, s8, s2, s10⟩⟩
      unfold enumDict
      rw [s7]
    · cases hen : p.enum with
      | none =>
        have hkey : Proposer.next_proposal cfg (fuel + 1) h p tr
            = (h, { p with i_coal_recons := p.i_coal_recons + 1 }, tr,
               p.recon.getD 0) := by
          rw [Proposer.next_proposal, if_neg hge]
          simp only [hen]
        rw [hkey]
        exact ⟨le_refl _, fun x _ _ _ => rfl, rfl,
          Or.inl ⟨rfl, by simp [enumDict, hen], rfl⟩⟩
      | some e =>
        by_cases hrem : e.remaining = 0
        · have henn : enum_next h e = (h, e, false) := by
            unfold enum_next
            rw [if_pos hrem]
          have hkey : Proposer.next_proposal cfg (fuel + 1) h p tr
              = Proposer.next_proposal cfg fuel h
                  { p with
                    i_coal_recons := p.i_coal_recons + 1,
                    i_coal_recon_junk := some p.num_coal_recons }
                  (tr ++ [Ev.enumStop]) := by
            rw [Proposer.next_proposal, if_neg hge]
            simp only [hen, henn]
            rfl
          rw [hkey]
          obtain ⟨m1, m2, m3, m4⟩ := ih h
            { p with
              i_coal_recons := p.i_coal_recons + 1,
              i_coal_recon_junk := some p.num_coal_recons }
            (tr ++ [Ev.enumStop])
          have hed2 : enumDict
              { p with
                i_coal_recons := p.i_coal_recons + 1,
                i_coal_recon_junk := some p.num_coal_recons }
              = enumDict p := rfl
          refine ⟨m1, fun x hx hxe hxl => m2 x hx (by rwa [hed2]) hxl,
            m3, ?_⟩
          rcases m4 with ⟨v1, v2, v3⟩ | hv
          · exact Or.inl ⟨v1, v2.trans hed2, v3⟩
          · exact Or.inr hv
        · have henn : enum_next h e
              = ((h.fresh).1.write e.dict (.dict [(0, h.ctr)]),
                 { dict := e.dict, remaining := e.remaining - 1 },
                 true) := by
            unfold enum_next
            rw [if_neg hrem]
            rfl
          have hkey : Proposer.next_proposal cfg (fuel + 1) h p tr
              = ((h.fresh).1.write e.dict (.dict [(0, h.ctr)]),
                 { p with
                   i_coal_recons := p.i_coal_recons + 1,
                   enum := some { dict := e.dict,
                                  remaining := e.remaining - 1 } },
                 tr ++ [Ev.enumNext], p.recon.getD 0) := by
            rw [Proposer.next_proposal, if_neg hge]
            simp only [hen, henn]
            rfl
          rw [hkey]
          have hed : enumDict p = e.dict := by
            unfold enumDict
            rw [hen]
          refine ⟨by simp [Heap.write], ?_, rfl,
            Or.inl ⟨rfl, ?_, rfl⟩⟩
          · intro x hx hxe _
            rw [hed] at hxe
            rw [Heap.get_write_ne _ _ _ _ (fun he => hxe he.symm),
              Heap.get_fresh]
          · rw [hed]
            rfl

/-- Whether an object is a `Recon` record. -/
def Obj.isRecon : Obj → Bool
  | .recon _ _ _ _ _ _ => true
  | _ => false

/-- The addresses a stored best record must keep intact under the
amended claim C1: the record object itself and its `locus_recon`,
`locus_events`, `daughters` and `data` objects (its `coal_recon`
contents and locus tree payload are shared with the live proposal and
are mutated through it). -/
def protectedAddrs (h : Heap) (b : ℕ) : List ℕ :=
  [b, (h.get b).lrF, (h.get b).leF, (h.get b).dsF, (h.get b).daF]

/-- The driver-loop invariant about the live proposal `s.2`: it is the
proposer's current record, a record object inside the heap, distinct
from the enumerator's mapping, from the search's tree and from its own
locus tree. -/
def GoodProp (s : Driver × ℕ) : Prop :=
  s.2 = s.1.proposer.recon.getD 0
    ∧ (s.1.heap.get s.2).isRecon = true
    ∧ s.2 < s.1.heap.objs.length
    ∧ enumDict s.1.proposer ≠ s.2
    ∧ s.1.proposer.locus_search.tree.getD 0 ≠ s.2
    ∧ s.1.proposer.locus_search.tree.getD 0 < s.1.heap.objs.length
    ∧ (s.1.heap.get s.2).ltF ≠ s.2
    ∧ (s.1.heap.get s.2).ltF < s.1.heap.objs.length

instance GoodProp.dec (s : Driver × ℕ) : Decidable (GoodProp s) := by
  unfold GoodProp
  infer_instance

/-- The invariant of the amended claim C1: the running best is `b`, the
live proposal is well-formed, and `b`'s protected addresses are disjoint
from every address the search iteration writes through the live
proposal (the proposal record, its locus tree, the enumerator's mapping
and the search's tree). -/
def Driver.Good (s : Driver × ℕ) (b : ℕ) : Prop :=
  s.1.maxrecon = some b
    ∧ GoodProp s
    ∧ (∀ x ∈ protectedAddrs s.1.heap b,
        x < s.1.heap.objs.length ∧ x ≠ s.2
          ∧ x ≠ (s.1.heap.get s.2).ltF
          ∧ x ≠ enumDict s.1.proposer
          ∧ x ≠ s.1.proposer.locus_search.tree.getD 0)

instance Driver.Good.dec (s : Driver × ℕ) (b : ℕ) :
    Decidable (Driver.Good s b) := by
  unfold Driver.Good
  infer_instance

theorem Recon.copy_addr (h : Heap) (r cr lt lr le ds da : ℕ)
    (hget : h.get r = .recon cr lt lr le ds da) :
    (Recon.copy h r).2 = h.objs.length + 1
      ∧ (Recon.copy h r).1.objs.length = h.objs.length + 2 := by
  have hred : Recon.copy h r
      = ((h.alloc (h.get da)).1.alloc
          (.recon cr lt lr le ds h.objs.length)) := by
    unfold Recon.copy
    rw [hget]
    rfl
  rw [hred]
  constructor
  · simp
  · simp

/-- The driver state after `eval_proposal` and `eval_search` of one loop
iteration (lines 128-129). -/
def d1of (cfg : Cfg) (d : Driver) (i a : ℕ) : Driver :=
  Driver.eval_search (Driver.eval_proposal cfg d i a).1
    (Driver.eval_proposal cfg d i a).2 a

theorem step_eq (cfg : Cfg) (d : Driver) (i a : ℕ) :
    Driver.step cfg d i a
      = ({ d1of cfg d i a with
           heap := (Proposer.next_proposal cfg
             ((d1of cfg d i a).proposer.num_coal_recons + 1)
             (d1of cfg d i a).heap (d1of cfg d i a).proposer
             (d1of cfg d i a).trace).1,
           proposer := (Proposer.next_proposal cfg
             ((d1of cfg d i a).proposer.num_coal_recons + 1)
             (d1of cfg d i a).heap (d1of cfg d i a).proposer
             (d1of cfg d i a).trace).2.1,
           trace := (Proposer.next_proposal cfg
             ((d1of cfg d i a).proposer.num_coal_recons + 1)
             (d1of cfg d i a).heap (d1of cfg d i a).proposer
             (d1of cfg d i a).trace).2.2.1 },
         (Proposer.next_proposal cfg
           ((d1of cfg d i a).proposer.num_coal_recons + 1)
           (d1of cfg d i a).heap (d1of cfg d i a).proposer
           (d1of cfg d i a).trace).2.2.2) := rfl

theorem d1of_cases (cfg : Cfg) (d : Driver) (i a : ℕ) :
    (d1of cfg d i a).proposer.recon = d.proposer.recon
      ∧ (d1of cfg d i a).proposer.num_coal_recons
          = d.proposer.num_coal_recons
      ∧ enumDict (d1of cfg d i a).proposer = enumDict d.proposer
      ∧ (d1of cfg d i a).proposer.locus_search
          = d.proposer.locus_search
      ∧ (d1of cfg d i a).maxp
          = (if d.maxp < cfg.score i then cfg.score i else d.maxp)
      ∧ (d1of cfg d i a).heap
          = (if d.maxp < cfg.score i
             then (Recon.copy (Driver.eval_proposal cfg d i a).1.heap a).1
             else (Driver.eval_proposal cfg d i a).1.heap)
      ∧ (d1of cfg d i a).maxrecon
          = (if d.maxp < cfg.score i
             then some (Recon.copy
                 (Driver.eval_proposal cfg d i a).1.heap a).2
             else d.maxrecon) := by
  by_cases hlt : d.maxp < cfg.score i <;>
    simp [d1of, Driver.eval_search, Proposer.accept, Driver.eval_proposal,
      enumDict, hlt]

theorem step_main (cfg : Cfg) (s : Driver × ℕ) (i : ℕ)
    (hgp : GoodProp s) :
    GoodProp (Driver.step cfg s.1 i s.2)
      ∧ s.1.heap.objs.length
          ≤ (Driver.step cfg s.1 i s.2).1.heap.objs.length
      ∧ ((Driver.step cfg s.1 i s.2).1.maxrecon = s.1.maxrecon
         ∨ ∃ a2, (Driver.step cfg s.1 i s.2).1.maxrecon = some a2
             ∧ s.1.heap.objs.length ≤ a2)
      ∧ (∀ x, x < s.1.heap.objs.length → x ≠ s.2
          → x ≠ (s.1.heap.get s.2).ltF → x ≠ enumDict s.1.proposer
          → x ≠ s.1.proposer.locus_search.tree.getD 0
          → (Driver.step cfg s.1 i s.2).1.heap.get x = s.1.heap.get x)
      ∧ ((Driver.step cfg s.1 i s.2).2 = s.2
         ∨ s.1.heap.objs.length ≤ (Driver.step cfg s.1 i s.2).2)
      ∧ ((Driver.step cfg s.1 i s.2).1.proposer.locus_search.tree
          = s.1.proposer.locus_search.tree)
      ∧ (enumDict (Driver.step cfg s.1 i s.2).1.proposer
            = enumDict s.1.proposer
         ∨ s.1.heap.objs.length
             ≤ enumDict (Driver.step cfg s.1 i s.2).1.proposer)
      ∧ (((Driver.step cfg s.1 i s.2).1.heap.get
            (Driver.step cfg s.1 i s.2).2).ltF
            = (s.1.heap.get s.2).ltF
         ∨ s.1.heap.objs.length
             ≤ ((Driver.step cfg s.1 i s.2).1.heap.get
                 (Driver.step cfg s.1 i s.2).2).ltF) := by
  obtain ⟨g1, g2, g3, g4, g5, g6, g7, g8⟩ := hgp
  cases hobj : s.1.heap.get s.2 with
  | dict es => rw [hobj] at g2; exact absurd g2 (by simp [Obj.isRecon])
  | nset es => rw [hobj] at g2; exact absurd g2 (by simp [Obj.isRecon])
  | tree tp dd nn =>
    rw [hobj] at g2; exact absurd g2 (by simp [Obj.isRecon])
  | recon cr lt lr le ds da =>
  have hltF : (s.1.heap.get s.2).ltF = lt := by rw [hobj]; rfl
  rw [hltF] at g7 g8
  obtain ⟨E1, E2, E3⟩ := eval_proposal_heap cfg s.1 i s.2 cr lt lr le ds
    da hobj g3 (Ne.symm g7)
  obtain ⟨c1, c2, c3, c4, c5, c6, c7⟩ := d1of_cases cfg s.1 i s.2
  have hd1get : (d1of cfg s.1 i s.2).heap.get s.2
      = .recon cr lt lr le ds s.1.heap.objs.length := by
    rw [c6]
    by_cases hsc : s.1.maxp < cfg.score i
    · rw [if_pos hsc]
      rw [(Recon.copy_frame (Driver.eval_proposal cfg s.1 i s.2).1.heap
        s.2).2 s.2 (by rw [E3]; omega)]
      exact E1
    · rw [if_neg hsc]
      exact E1
  have hd1len : s.1.heap.objs.length + 1
      ≤ (d1of cfg s.1 i s.2).heap.objs.length := by
    rw [c6]
    by_cases hsc : s.1.maxp < cfg.score i
    · rw [if_pos hsc]
      have := (Recon.copy_frame
        (Driver.eval_proposal cfg s.1 i s.2).1.heap s.2).1
      omega
    · rw [if_neg hsc]
      omega
  have hd1frame : ∀ x, x < s.1.heap.objs.length → x ≠ s.2 → x ≠ lt →
      (d1of cfg s.1 i s.2).heap.get x = s.1.heap.get x := by
    intro x hx hxa hxl
    rw [c6]
    by_cases hsc : s.1.maxp < cfg.score i
    · rw [if_pos hsc]
      rw [(Recon.copy_frame (Driver.eval_proposal cfg s.1 i s.2).1.heap
        s.2).2 x (by rw [E3]; omega)]
      exact E2 x hx hxa hxl
    · rw [if_neg hsc]
      exact E2 x hx hxa hxl
  have hd1max : (d1of cfg s.1 i s.2).maxrecon = s.1.maxrecon
      ∨ ∃ a2, (d1of cfg s.1 i s.2).maxrecon = some a2
          ∧ s.1.heap.objs.length ≤ a2 := by
    rw [c7]
    by_cases hsc : s.1.maxp < cfg.score i
    · rw [if_pos hsc]
      refine Or.inr ⟨(Recon.copy
        (Driver.eval_proposal cfg s.1 i s.2).1.heap s.2).2, rfl, ?_⟩
      have := (Recon.copy_addr
        (Driver.eval_proposal cfg s.1 i s.2).1.heap s.2 cr lt lr le ds
        s.1.heap.objs.length E1).1
      omega
    · rw [if_neg hsc]
      exact Or.inl rfl
  obtain ⟨m1, m2, m3, m4⟩ := next_proposal_effects cfg
    ((d1of cfg s.1 i s.2).proposer.num_coal_recons + 1)
    (d1of cfg s.1 i s.2).heap (d1of cfg s.1 i s.2).proposer
    (d1of cfg s.1 i s.2).trace
  have hsheap : (Driver.step cfg s.1 i s.2).1.heap
      = (Proposer.next_proposal cfg
          ((d1of cfg s.1 i s.2).proposer.num_coal_recons + 1)
          (d1of cfg s.1 i s.2).heap (d1of cfg s.1 i s.2).proposer
          (d1of cfg s.1 i s.2).trace).1 := rfl
  have hsprop : (Driver.step cfg s.1 i s.2).1.proposer
      = (Proposer.next_proposal cfg
          ((d1of cfg s.1 i s.2).proposer.num_coal_recons + 1)
          (d1of cfg s.1 i s.2).heap (d1of cfg s.1 i s.2).proposer
          (d1of cfg s.1 i s.2).trace).2.1 := rfl
  have hsmax : (Driver.step cfg s.1 i s.2).1.maxrecon
      = (d1of cfg s.1 i s.2).maxrecon := rfl
  have hsaddr : (Driver.step cfg s.1 i s.2).2
      = (Proposer.next_proposal cfg
          ((d1of cfg s.1 i s.2).proposer.num_coal_recons + 1)
          (d1of cfg s.1 i s.2).heap (d1of cfg s.1 i s.2).proposer
          (d1of cfg s.1 i s.2).trace).2.2.2 := rfl
  unfold GoodProp
  rw [hsheap, hsprop, hsmax, hsaddr]
  have hLd1 : s.1.heap.objs.length
      ≤ (d1of cfg s.1 i s.2).heap.objs.length := by omega
  have hframe2 : ∀ x, x < s.1.heap.objs.length → x ≠ s.2 → x ≠ lt →
      x ≠ enumDict s.1.proposer →
      x ≠ s.1.proposer.locus_search.tree.getD 0 →
      (Proposer.next_proposal cfg
        ((d1of cfg s.1 i s.2).proposer.num_coal_recons + 1)
        (d1of cfg s.1 i s.2).heap (d1of cfg s.1 i s.2).proposer
        (d1of cfg s.1 i s.2).trace).1.get x = s.1.heap.get x := by
    intro x hx hxa hxl hxe hxs
    rw [m2 x (by omega) (by rw [c3]; exact hxe) (by rw [c4]; exact hxs),
      hd1frame x hx hxa hxl]
  rcases m4 with ⟨v1, v2, v3⟩ | ⟨v1, v2, v3, v4, v5⟩
  · -- variant branch: same record returned
    have haddr : (Proposer.next_proposal cfg
        ((d1of cfg s.1 i s.2).proposer.num_coal_recons + 1)
        (d1of cfg s.1 i s.2).heap (d1of cfg s.1 i s.2).proposer
        (d1of cfg s.1 i s.2).trace).2.2.2 = s.2 := by
      rw [v1, c1, ← g1]
    have hget2 : (Proposer.next_proposal cfg
        ((d1of cfg s.1 i s.2).proposer.num_coal_recons + 1)
        (d1of cfg s.1 i s.2).heap (d1of cfg s.1 i s.2).proposer
        (d1of cfg s.1 i s.2).trace).1.get s.2
        = .recon cr lt lr le ds s.1.heap.objs.length := by
      rw [m2 s.2 (by omega) (by rw [c3]; exact Ne.symm g4)
        (by rw [c4]; exact Ne.symm g5), hd1get]
    refine ⟨⟨?_, ?_, ?_, ?_, ?_, ?_, ?_, ?_⟩, by omega, ?_, hframe2,
      Or.inl haddr, ?_, ?_, ?_⟩
    · rw [haddr, v3, c1, g1]
    · rw [haddr, hget2]
      rfl
    · rw [haddr]
      omega
    · rw [haddr, v2, c3]
      exact g4
    · rw [haddr, m3, c4]
      exact g5
    · rw [m3, c4]
      omega
    · rw [haddr, hget2]
      show lt ≠ s.2
      exact g7
    · rw [haddr, hget2]
      show lt < _
      omega
    · exact hd1max
    · rw [m3, c4]
    · exact Or.inl (by rw [v2, c3])
    · rw [haddr, hget2]
      exact Or.inl rfl
  · -- topology branch: fresh record, fresh enumerator, fresh locus tree
    have hgetv : (Proposer.next_proposal cfg
        ((d1of cfg s.1 i s.2).proposer.num_coal_recons + 1)
        (d1of cfg s.1 i s.2).heap (d1of cfg s.1 i s.2).proposer
        (d1of cfg s.1 i s.2).trace).1.get
          ((d1of cfg s.1 i s.2).heap.objs.length + 6)
        = .recon ((d1of cfg s.1 i s.2).heap.objs.length + 4)
            (d1of cfg s.1 i s.2).heap.objs.length
            ((d1of cfg s.1 i s.2).heap.objs.length + 1)
            ((d1of cfg s.1 i s.2).heap.objs.length + 2)
            ((d1of cfg s.1 i s.2).heap.objs.length + 3)
            ((d1of cfg s.1 i s.2).heap.objs.length + 5) := v4
    refine ⟨⟨?_, ?_, ?_, ?_, ?_, ?_, ?_, ?_⟩, by omega, ?_, hframe2,
      Or.inr (by rw [v1]; omega), ?_, ?_, ?_⟩
    · rw [v1, v3]
      rfl
    · rw [v1, hgetv]
      rfl
    · rw [v1, v5]
      omega
    · rw [v1, v2]
      omega
    · rw [v1, m3, c4]
      have : s.1.proposer.locus_search.tree.getD 0
          < (d1of cfg s.1 i s.2).heap.objs.length := by omega
      omega
    · rw [m3, c4, v5]
      omega
    · rw [v1, hgetv]
      show (d1of cfg s.1 i s.2).heap.objs.length ≠ _
      omega
    · rw [v1, hgetv, v5]
      show (d1of cfg s.1 i s.2).heap.objs.length < _
      omega
    · exact hd1max
    · rw [m3, c4]
    · exact Or.inr (by rw [v2]; omega)
    · rw [v1, hgetv]
      exact Or.inr (by show _ ≤ (d1of cfg s.1 i s.2).heap.objs.length; omega)


/-- Heap length, `GoodProp` and running-best evolution across the whole
search loop: the invariant is preserved, the heap only grows, and the
best is either unchanged or a record copied at or above the starting
heap length. -/
theorem loop_effects (cfg : Cfg) (n : ℕ) : ∀ i s, GoodProp s →
    GoodProp (Driver.loop cfg n i s)
      ∧ s.1.heap.objs.length
          ≤ (Driver.loop cfg n i s).1.heap.objs.length
      ∧ ((Driver.loop cfg n i s).1.maxrecon = s.1.maxrecon
         ∨ ∃ a2, (Driver.loop cfg n i s).1.maxrecon = some a2
             ∧ s.1.heap.objs.length ≤ a2) := by
  induction n with
  | zero => exact fun i s hs => ⟨hs, le_refl _, Or.inl rfl⟩
  | succ n ih =>
    intro i s hs
    obtain ⟨h1, h2, h3, _⟩ := step_main cfg s i hs
    obtain ⟨k1, k2, k3⟩ := ih (i + 1) (Driver.step cfg s.1 i s.2) h1
    rw [Driver.loop]
    refine ⟨k1, le_trans h2 k2, ?_⟩
    rcases k3 with k3 | ⟨a2, ha2, hge⟩
    · rw [k3]
      rcases h3 with h3 | ⟨a2, ha2, hge⟩
      · exact Or.inl h3
      · exact Or.inr ⟨a2, ha2, hge⟩
    · exact Or.inr ⟨a2, ha2, le_trans h2 hge⟩

/-- One search iteration that keeps the running best leaves the best
record and all its protected objects untouched and preserves the
invariant `Driver.Good`. -/
theorem step_keep (cfg : Cfg) (s : Driver × ℕ) (i b : ℕ)
    (hg : Driver.Good s b)
    (hk : (Driver.step cfg s.1 i s.2).1.maxrecon = some b) :
    Driver.Good (Driver.step cfg s.1 i s.2) b
      ∧ protectedAddrs (Driver.step cfg s.1 i s.2).1.heap b
          = protectedAddrs s.1.heap b
      ∧ (∀ x ∈ protectedAddrs s.1.heap b,
          (Driver.step cfg s.1 i s.2).1.heap.get x = s.1.heap.get x) := by
  obtain ⟨hmax, hgp, hprot⟩ := hg
  obtain ⟨h1, h2, h3, h4, h5, h6, h7, h8⟩ := step_main cfg s i hgp
  have hbL : b < s.1.heap.objs.length :=
    (hprot b (by simp [protectedAddrs])).1
  rcases h3 with h3 | ⟨a2, ha2, hge⟩
  · have hframe : ∀ x ∈ protectedAddrs s.1.heap b,
        (Driver.step cfg s.1 i s.2).1.heap.get x = s.1.heap.get x := by
      intro x hx
      obtain ⟨hxL, hxa, hxl, hxe, hxs⟩ := hprot x hx
      exact h4 x hxL hxa hxl hxe hxs
    have hgetb : (Driver.step cfg s.1 i s.2).1.heap.get b
        = s.1.heap.get b := hframe b (by simp [protectedAddrs])
    have haddrs : protectedAddrs (Driver.step cfg s.1 i s.2).1.heap b
        = protectedAddrs s.1.heap b := by
      unfold protectedAddrs
      rw [hgetb]
    refine ⟨⟨hk, h1, ?_⟩, haddrs, hframe⟩
    rw [haddrs]
    intro x hx
    obtain ⟨hxL, hxa, hxl, hxe, hxs⟩ := hprot x hx
    refine ⟨by omega, ?_, ?_, ?_, ?_⟩
    · rcases h5 with h5 | h5
      · rw [h5]
        exact hxa
      · omega
    · rcases h8 with h8 | h8
      · rw [h8]
        exact hxl
      · omega
    · rcases h7 with h7 | h7
      · rw [h7]
        exact hxe
      · omega
    · rw [h6]
      exact hxs
  · rw [hk] at ha2
    have e : b = a2 := Option.some.inj ha2
    exact absurd e (by omega)

/-- When the whole remaining loop ends with the same running best `b`,
no iteration ever replaced it (every replacement lives at or above the
pre-step heap length, above `b`), so the protected objects of `b`
survive the loop unchanged. -/
theorem loop_keep_main (cfg : Cfg) (n : ℕ) : ∀ i s b,
    Driver.Good s b →
    (Driver.loop cfg n i s).1.maxrecon = some b →
    protectedAddrs (Driver.loop cfg n i s).1.heap b
        = protectedAddrs s.1.heap b
      ∧ (∀ x ∈ protectedAddrs s.1.heap b,
          (Driver.loop cfg n i s).1.heap.get x = s.1.heap.get x) := by
  induction n with
  | zero => exact fun i s b _ _ => ⟨rfl, fun x _ => rfl⟩
  | succ n ih =>
    intro i s b hg hk
    obtain ⟨hgmax, hggp, hgprot⟩ := hg
    rw [Driver.loop] at hk ⊢
    have hbL : b < s.1.heap.objs.length :=
      (hgprot b (by simp [protectedAddrs])).1
    have hstepk : (Driver.step cfg s.1 i s.2).1.maxrecon = some b := by
      obtain ⟨h1, h2, h3, _⟩ := step_main cfg s i hggp
      rcases h3 with h3 | ⟨a2, ha2, hge⟩
      · rw [h3, hgmax]
      · obtain ⟨k1, k2, k3⟩ := loop_effects cfg n (i + 1)
          (Driver.step cfg s.1 i s.2) h1
        rcases k3 with k3 | ⟨a3, ha3, hge3⟩
        · rw [k3, ha2] at hk
          have e : a2 = b := Option.some.inj hk
          exact absurd e (by omega)
        · rw [ha3] at hk
          have e : a3 = b := Option.some.inj hk
          exact absurd e (by omega)
    obtain ⟨kg, ka, kf⟩ := step_keep cfg s i b ⟨hgmax, hggp, hgprot⟩ hstepk
    obtain ⟨ja, jf⟩ := ih (i + 1) (Driver.step cfg s.1 i s.2) b kg hk
    constructor
    · rw [ja, ka]
    · intro x hx
      rw [jf x (by rw [ka]; exact hx), kf x hx]

/-- Search scores for the concrete C1 run: the first candidate scores
zero, every other candidate scores `-inf`, so the first candidate is
stored as the running best and never replaced. -/
def c1cfg : Cfg :=
  { enumSize := 5,
    score := fun i => if i = 0 then ((0 : ℚ) : WithBot ℚ) else ⊥ }

/-- Driver state and initial proposal of the C1 run after `init_search`
and the initial copy of the proposal into the best slot. -/
def c1s0 : Driver × ℕ := DLCoalRecon.setup c1cfg c7h0 c7p0 0

/-- The driver just after the decide step of the first iteration
accepted the first candidate: a copy of the live proposal is stored as the best, at
address 13, before `next_proposal` runs. -/
def c1d1 : Driver := d1of c1cfg c1s0.1 0 c1s0.2

/-- The search state after the full first iteration of the C1 run. -/
def c1s1 : Driver × ℕ := Driver.step c1cfg c1s0.1 0 c1s0.2

/-- Counterexample to claim C1 as stated: immediately after the decide
step stores the accepted candidate as the running best (address 13),
the very next `next_proposal` call advances the reconciliation
enumerator, which rewrites in place the coalescent reconciliation
mapping that the stored copy shares with the live proposal: the stored
`coal_recon` contents of the stored best record change while it is
the best. -/
theorem claim_C1_counterexample :
    c1d1.maxrecon = some 13
      ∧ Recon.coalObj (Proposer.next_proposal c1cfg
            (c1d1.proposer.num_coal_recons + 1) c1d1.heap c1d1.proposer
            c1d1.trace).1 13
          ≠ Recon.coalObj c1d1.heap 13 := by
  decide

/-- Claim C1 (amended): once a candidate reconciliation record has been
stored as the running best, then as long as the driver never replaces
the best with a new copy, every subsequent search iteration leaves the
stored record object and its `locus_recon`, `locus_events`, `daughters`
and `data` objects unchanged; its `coal_recon` mapping and `locus_tree`
payload are shared with the live proposal and excluded, because the
reconciliation enumerator rewrites the shared mapping in place and the
scoring step sets the branch lengths of the shared tree in place. -/
theorem claim_C1_amended (cfg : Cfg) (n i : ℕ) (s : Driver × ℕ) (b : ℕ)
    (hg : Driver.Good s b)
    (hkeep : (Driver.loop cfg n i s).1.maxrecon = some b) :
    protectedAddrs (Driver.loop cfg n i s).1.heap b
        = protectedAddrs s.1.heap b
      ∧ ∀ x ∈ protectedAddrs s.1.heap b,
          (Driver.loop cfg n i s).1.heap.get x = s.1.heap.get x :=
  loop_keep_main cfg n i s b hg hkeep

theorem claim_C1_amended_witness :
    Driver.Good c1s1 13
      ∧ (Driver.loop c1cfg 2 1 c1s1).1.maxrecon = some 13
      ∧ (protectedAddrs (Driver.loop c1cfg 2 1 c1s1).1.heap 13
            = protectedAddrs c1s1.1.heap 13
         ∧ ∀ x ∈ protectedAddrs c1s1.1.heap 13,
             (Driver.loop c1cfg 2 1 c1s1).1.heap.get x
               = c1s1.1.heap.get x) :=
  ⟨by decide, by decide,
   claim_C1_amended c1cfg 2 1 c1s1 13 (by decide) (by decide)⟩

end DLCoal
